import Mathlib

/- Verification of the uvrs PEP 723 metadata engine (src/uvrs/__init__.py).

Texts are modelled as `List Char`.  Line structure is taken with respect to
the newline character: theorems about code built on Python `str.splitlines`
carry a `Clean` hypothesis restricting to texts whose only line-break
character is the newline, which is exactly the domain where the
`pySplitlines` model below agrees with Python. -/

/-- Split a text at every newline character; a text with n newlines yields
n+1 parts (Python `str.split("\n")`). -/
def splitNl : List Char → List (List Char)
  | [] => [[]]
  | c :: cs =>
    if c = '\n' then [] :: splitNl cs
    else
      match splitNl cs with
      | [] => [[c]]
      | l :: ls => (c :: l) :: ls

/-- Join lines with single newline separators (Python `"\n".join`). -/
def joinNl : List (List Char) → List Char
  | [] => []
  | [l] => l
  | l :: ls => l ++ '\n' :: joinNl ls

/-- Characters besides the newline that Python `str.splitlines` treats as
line breaks.  Texts containing none of them form the domain on which the
models below are exact. -/
def isExoticBreak (c : Char) : Bool :=
  c == '\r' || c == '\x0b' || c == '\x0c' || c == '\x1c' || c == '\x1d' ||
    c == '\x1e' || c == '\x85' || c == '\u2028' || c == '\u2029'

/-- Texts whose only line-break character is the newline. -/
abbrev Clean (t : List Char) : Prop := ∀ c ∈ t, isExoticBreak c = false

/-- Model of Python `str.splitlines()` (no keepends), exact on `Clean`
texts: split at newlines and drop the final empty part that a trailing
newline produces. -/
def pySplitlines (t : List Char) : List (List Char) :=
  let ps := splitNl t
  if ps.getLast? = some [] then ps.dropLast else ps

/-- Reattach the newline to every part except the last, dropping a final
empty part; the list-of-lines core of splitlines with keepends. -/
def keepParts (ps : List (List Char)) : List (List Char) :=
  (ps.dropLast.map (· ++ ['\n'])) ++
    (match ps.getLast? with
     | some [] => []
     | some l => [l]
     | none => [])

/-- Model of Python `str.splitlines(keepends=True)` on `Clean` texts:
every part except the last keeps its newline. -/
def pySplitKeep (t : List Char) : List (List Char) :=
  keepParts (splitNl t)

/-- The exact start-marker line of METADATA_REGEX. -/
def startMarker : List Char := "# /// script".data

/-- The exact end-marker line of METADATA_REGEX. -/
def endMarker : List Char := "# ///".data

/-- A line matching the inner-line pattern of METADATA_REGEX: a bare "#",
or "#" followed by one space and arbitrary non-newline content.  Note the
two marker lines themselves are content-shaped. -/
def isContentLine (l : List Char) : Bool :=
  l == ['#'] || l.take 2 == ['#', ' ']

/-- Greedy end search of METADATA_REGEX: within the maximal prefix run of
content-shaped lines, the index of the last line equal to the end marker
"# ///".  The (content)+ group is greedy and backtracks, so a match
extends to the last reachable end-marker line. -/
def lastEndIdx : List (List Char) → Option Nat
  | [] => none
  | l :: ls =>
    if isContentLine l then
      match lastEndIdx ls with
      | some k => some (k + 1)
      | none => if l == endMarker then some 0 else none
    else none

/-- One attempt of METADATA_REGEX at the start of line i: the line must be
exactly "# /// script" (followed by a newline), then at least one content
line, each newline-terminated, then the greedy last reachable "# ///"
line.  Returns the offset idx with the end-marker line at i+1+idx. -/
def tryMatchAt (parts : List (List Char)) (i : Nat) : Option Nat :=
  if parts.getD i [] = startMarker then
    match lastEndIdx (parts.drop (i + 1)) with
    | some idx => if 1 ≤ idx then some idx else none
    | none => none
  else none

/-- Fuel-driven scan modelling `METADATA_REGEX.finditer`: try each line in
turn; after a match ending at line j, scanning resumes at line j+1. -/
def findFromF : Nat → List (List Char) → Nat → List (Nat × Nat)
  | 0, _, _ => []
  | fuel + 1, parts, i =>
    if i < parts.length then
      match tryMatchAt parts i with
      | some idx => (i, i + 1 + idx) :: findFromF fuel parts (i + 2 + idx)
      | none => findFromF fuel parts (i + 1)
    else []

/-- The scan from line i with always-sufficient fuel. -/
def findFrom (parts : List (List Char)) (i : Nat) : List (Nat × Nat) :=
  findFromF (parts.length + 1) parts i

/-- All matches of METADATA_REGEX on the split text, as pairs of the start
and end line indices of each match. -/
def findBlocks (parts : List (List Char)) : List (Nat × Nat) :=
  findFrom parts 0

/-- Concatenation of lines, each followed by a newline: the shape of the
regex content group and of the text preceding a match. -/
def flattenNl (ls : List (List Char)) : List Char :=
  ls.foldr (fun l acc => l ++ '\n' :: acc) []

/-- The lines strictly between the two marker lines of a match. -/
def innerLines (parts : List (List Char)) (i j : Nat) : List (List Char) :=
  (parts.drop (i + 1)).take (j - (i + 1))

/-- The regex named group "content": the inner lines, each with its
trailing newline. -/
def contentGroup (parts : List (List Char)) (i j : Nat) : List Char :=
  flattenNl (innerLines parts i j)

/-- Character offset of the start of line i, i.e. `match.start()` for a
match beginning at line i. -/
def matchStart (parts : List (List Char)) (i : Nat) : Nat :=
  ((parts.take i).map (fun l => l.length + 1)).sum

/-- Character offset just after the end of line j, excluding its newline,
i.e. `match.end()` for a match whose end-marker line is j. -/
def matchEnd (parts : List (List Char)) (j : Nat) : Nat :=
  matchStart parts j + (parts.getD j []).length

/-- The full matched block text (`match.group(0)`): lines i through j
joined by newlines, with no trailing newline. -/
def matchedText (parts : List (List Char)) (i j : Nat) : List Char :=
  joinNl ((parts.drop i).take (j - i + 1))

/-- Failure modes of the update operation: the ValueError for multiple
blocks, and a tomlkit parse failure on the decoded block content. -/
inductive UpdateError where
  | multipleBlocks
  | tomlError
deriving DecidableEq

/-- Model of extract_metadata_block: zero matches reports absence, one
match is returned, two or more raise
ValueError("Multiple PEP 723 script blocks found"). -/
def extract_metadata_block (t : List Char) : Except UpdateError (Option (Nat × Nat)) :=
  match findBlocks (splitNl t) with
  | [] => .ok none
  | [m] => .ok (some m)
  | _ => .error .multipleBlocks

/-- Python `str.removeprefix`: drop p from the front of l when it is a
prefix, otherwise return l unchanged. -/
def removePre (p l : List Char) : List Char :=
  if p.isPrefixOf l then l.drop p.length else l

/-- The per-line decoding step of parse_metadata:
`line.removeprefix("#").removeprefix(" ")`. -/
def stripLine (l : List Char) : List Char :=
  removePre [' '] (removePre ['#'] l)

/-- Model of parse_metadata applied to the content group of a match:
split the group into lines, strip each, join with newlines. -/
def parse_metadata (content : List Char) : List Char :=
  joinNl ((pySplitlines content).map stripLine)

/-- The per-line encoding step of format_metadata: "# " before a nonempty
line, a bare "#" for an empty line. -/
def frameLine (l : List Char) : List Char :=
  if l = [] then ['#'] else '#' :: ' ' :: l

/-- Model of format_metadata: frame each line of the TOML text and wrap
with the marker lines, without a trailing newline after "# ///". -/
def format_metadata (toml : List Char) : List Char :=
  "# /// script\n".data ++ joinNl ((pySplitlines toml).map frameLine) ++ "\n# ///".data

/-- Modelled from the spec: tomlkit is an external collaborator, not part
of this repository.  A line of the structured document is a section
header when it opens with a bracket. -/
def isHeaderLine (l : List Char) : Bool := l.take 1 == ['[']

/-- Modelled from the spec: a key-value line contains the key-value
separator and is not a header. -/
def isKvLine (l : List Char) : Bool :=
  decide (" = ".data <:+: l) && !(l.take 1 == ['['])

/-- Modelled from the spec: a line of a structured document is blank, a
section header, or a key-value pair. -/
def validTomlLine (l : List Char) : Bool :=
  l == [] || isHeaderLine l || isKvLine l

/-- Modelled from the spec: the structured-document codec is
style-preserving (round-tripping an untouched document is byte-identical),
so a document is represented by its list of lines; parsing validates each
line. -/
def toml_parse (t : List Char) : Option (List (List Char)) :=
  if (splitNl t).all validTomlLine then some (splitNl t) else none

/-- Modelled from the spec: serializing a document joins its lines back,
byte-identically for untouched documents. -/
def toml_dumps (doc : List (List Char)) : List Char := joinNl doc

/-- The "[tool]" section header line. -/
def toolHeader : List Char := "[tool]".data

/-- The "[tool.uv]" section header line. -/
def toolUvHeader : List Char := "[tool.uv]".data

/-- The serialized exclude-newer entry carrying the timestamp string. -/
def mkKv (ts : List Char) : List Char :=
  "exclude-newer = \"".data ++ ts ++ ['"']

/-- Recognizer for an existing exclude-newer entry line. -/
def isExcludeKv (l : List Char) : Bool :=
  ("exclude-newer = ".data).isPrefixOf l

/-- Modelled from the spec: set the leaf key within the [tool.uv] section —
replace an existing exclude-newer entry in place, otherwise add the entry
at the end of the section (before the next section header). -/
def setIn (ts : List Char) : List (List Char) → List (List Char)
  | [] => [mkKv ts]
  | l :: rest =>
    if isExcludeKv l then mkKv ts :: rest
    else if isHeaderLine l then mkKv ts :: l :: rest
    else l :: setIn ts rest

/-- Modelled from the spec: walk to the first [tool.uv] header and update
the section that follows it. -/
def goAfterToolUv (ts : List Char) : List (List Char) → List (List Char)
  | [] => []
  | l :: rest =>
    if l = toolUvHeader then l :: setIn ts rest
    else l :: goAfterToolUv ts rest

/-- Modelled from the spec: ensure the tool / uv section path exists
(creating empty intermediate sections as needed, without disturbing any
other existing keys or their relative ordering) and set the exclude-newer
leaf to the timestamp. -/
def setExcludeNewer (doc : List (List Char)) (ts : List Char) : List (List Char) :=
  if doc.contains toolUvHeader then goAfterToolUv ts doc
  else
    doc ++ (if doc.contains toolHeader then [] else [toolHeader]) ++
      [toolUvHeader, mkKv ts]

/-- Modelled from the spec: the dump of the freshly constructed minimal
document with an empty dependency list and the nested timestamp key. -/
def minimalDoc (ts : List Char) : List (List Char) :=
  ["dependencies = []".data, toolHeader, toolUvHeader, mkKv ts]

/-- Model of update_exclude_newer on file content.  The timestamp is an
input (get_current_timestamp reads the wall clock) and the text that
would be written back is returned; errors propagate before any write. -/
def update_exclude_newer (ts t : List Char) : Except UpdateError (List Char) :=
  match extract_metadata_block t with
  | .error e => .error e
  | .ok (some (i, j)) =>
    let parts := splitNl t
    match toml_parse (parse_metadata (contentGroup parts i j)) with
    | none => .error .tomlError
    | some doc =>
      let newBlock := format_metadata (toml_dumps (setExcludeNewer doc ts))
      .ok (t.take (matchStart parts i) ++ newBlock ++ t.drop (matchEnd parts j))
  | .ok none =>
    let newBlock := format_metadata (toml_dumps (minimalDoc ts))
    if t.take 2 = "#!".data then
      let ls := pySplitKeep t
      .ok (ls.headD [] ++ newBlock ++ '\n' :: ls.tail.flatten)
    else
      .ok (newBlock ++ '\n' :: t)

/-- The fixed interpreter-invocation line installed by uvrs. -/
def uvrsShebang : List Char := "#!/usr/bin/env uvrs".data

/-- Model of the shebang-rewriting step of handle_fix: when the text
starts with "#!", rejoin the fixed line with all lines after the first;
otherwise prepend the fixed line and a newline. -/
def fix_shebang (t : List Char) : List Char :=
  if t.take 2 = "#!".data then joinNl (uvrsShebang :: (pySplitlines t).tail)
  else uvrsShebang ++ '\n' :: t

/-- Timestamps considered by the idempotence statements: no newline and no
exotic break character, as is true of every RFC 3339 stamp the program
generates. -/
abbrev TsOk (ts : List Char) : Prop := '\n' ∉ ts ∧ Clean ts

/-- The framed exclude-newer line as it appears inside a stamped block. -/
def framedKv (ts : List Char) : List Char := '#' :: ' ' :: mkKv ts

/-- Decoding step exactly as the specification words it: strip exactly one
leading comment-prefix character, then strip at most one leading space. -/
def spec_strip (l : List Char) : List Char :=
  match l with
  | '#' :: ' ' :: r => r
  | '#' :: r => r
  | r => r

/-- Block decoding as the specification words it: strip each inner line
and join the results with single newline separators. -/
def spec_decode (ls : List (List Char)) : List Char :=
  joinNl (ls.map spec_strip)

/-- The line shape of a framed metadata block: start marker, the framed
document lines, end marker. -/
def blockLines (doc : List (List Char)) : List (List Char) :=
  startMarker :: doc.map frameLine ++ [endMarker]

/-- The text that follows a match end: nothing at end of file, otherwise
the end-marker's newline and the remaining lines. -/
def nlTail (S : List (List Char)) : List Char :=
  match S with
  | [] => []
  | _ :: _ => '\n' :: joinNl S

/-- The successful payload of an update, or the empty text on error; used
to state concrete counterexamples without existential binders. -/
def okOr (e : Except UpdateError (List Char)) : List Char :=
  match e with
  | .ok v => v
  | .error _ => []

/-- Domain of the amended idempotence claim: when the text has no block,
a shebang-opening text must contain a newline (otherwise the inserted
block is glued onto the shebang text and is not locatable afterwards) and
the lines following the insertion point must not begin with a run of
content-shaped lines containing a stray "# ///" end marker (otherwise the
greedy match later swallows that marker); when the text has one block,
its final inner line must not decode to an empty line (a trailing blank
is dropped by the splitlines-based re-framing). -/
def stampOk (t : List Char) : Bool :=
  match findBlocks (splitNl t) with
  | [] =>
    (!(t.take 2 == "#!".data) || t.contains '\n') &&
      (lastEndIdx (if t.take 2 == "#!".data then (splitNl t).tail else splitNl t)).isNone
  | [(_, j)] => !((stripLine ((splitNl t).getD (j - 1) [])).isEmpty)
  | _ => true

theorem splitNl_nil : splitNl [] = [[]] := rfl

theorem splitNl_cons_nl (t : List Char) : splitNl ('\n' :: t) = [] :: splitNl t := by
  simp [splitNl]

theorem splitNl_cons_other {c : Char} (h : c ≠ '\n') (t : List Char) :
    splitNl (c :: t) =
      (match splitNl t with
       | [] => [[c]]
       | l :: ls => (c :: l) :: ls) := by
  simp [splitNl, h]

theorem splitNl_ne_nil (t : List Char) : splitNl t ≠ [] := by
  induction t with
  | nil => simp [splitNl]
  | cons c cs ih =>
    by_cases h : c = '\n'
    · subst h; simp [splitNl_cons_nl]
    · rw [splitNl_cons_other h]
      rcases hs : splitNl cs with _ | ⟨l, ls⟩ <;> simp

theorem splitNl_noNl {t : List Char} (h : '\n' ∉ t) : splitNl t = [t] := by
  induction t with
  | nil => rfl
  | cons c cs ih =>
    have hc : c ≠ '\n' := fun hc => h (hc ▸ List.mem_cons_self c cs)
    rw [splitNl_cons_other hc, ih (fun hm => h (List.mem_cons_of_mem c hm))]

theorem splitNl_append_noNl {a : List Char} (h : '\n' ∉ a) (b : List Char) :
    splitNl (a ++ '\n' :: b) = a :: splitNl b := by
  induction a with
  | nil => simp [splitNl_cons_nl]
  | cons c cs ih =>
    have hc : c ≠ '\n' := fun hc => h (hc ▸ List.mem_cons_self c cs)
    have ih' := ih (fun hm => h (List.mem_cons_of_mem c hm))
    rw [List.cons_append, splitNl_cons_other hc, ih']

theorem joinNl_nil : joinNl [] = [] := rfl

theorem joinNl_single (l : List Char) : joinNl [l] = l := rfl

theorem joinNl_cons {ls : List (List Char)} (h : ls ≠ []) (l : List Char) :
    joinNl (l :: ls) = l ++ '\n' :: joinNl ls := by
  cases ls with
  | nil => exact absurd rfl h
  | cons l' ls' => rfl

theorem joinNl_splitNl (t : List Char) : joinNl (splitNl t) = t := by
  induction t with
  | nil => rfl
  | cons c cs ih =>
    by_cases h : c = '\n'
    · subst h
      rw [splitNl_cons_nl, joinNl_cons (splitNl_ne_nil cs)]
      simpa using ih
    · rw [splitNl_cons_other h]
      rcases hs : splitNl cs with _ | ⟨l, ls⟩
      · exact absurd hs (splitNl_ne_nil cs)
      · rw [hs] at ih
        cases ls with
        | nil => simpa [joinNl] using ih
        | cons l' ls' =>
          rw [joinNl_cons (by simp : (l' :: ls') ≠ []) (c :: l)]
          rw [joinNl_cons (by simp : (l' :: ls') ≠ []) l] at ih
          simpa using ih

theorem noNl_of_mem_splitNl {t l : List Char} (h : l ∈ splitNl t) : '\n' ∉ l := by
  induction t generalizing l with
  | nil =>
    rw [splitNl_nil, List.mem_singleton] at h
    subst h; simp
  | cons c cs ih =>
    by_cases hc : c = '\n'
    · subst hc
      rw [splitNl_cons_nl] at h
      rcases List.mem_cons.mp h with h | h
      · subst h; simp
      · exact ih h
    · rw [splitNl_cons_other hc] at h
      rcases hs : splitNl cs with _ | ⟨x, xs⟩
      · exact absurd hs (splitNl_ne_nil cs)
      · rw [hs] at h
        rcases List.mem_cons.mp h with h | h
        · subst h
          intro hm
          rcases List.mem_cons.mp hm with hm | hm
          · exact hc hm.symm
          · exact ih (hs ▸ List.mem_cons_self x xs) hm
        · exact ih (hs ▸ List.mem_cons_of_mem x h)

theorem splitNl_joinNl {ls : List (List Char)} (h : ∀ l ∈ ls, '\n' ∉ l)
    (h2 : ls ≠ []) : splitNl (joinNl ls) = ls := by
  induction ls with
  | nil => exact absurd rfl h2
  | cons l ls' ih =>
    cases ls' with
    | nil => exact splitNl_noNl (h l (by simp))
    | cons l' ls'' =>
      rw [joinNl_cons (by simp)]
      rw [splitNl_append_noNl (h l (by simp))]
      rw [ih (fun x hx => h x (List.mem_cons_of_mem l hx)) (by simp)]

theorem flattenNl_nil : flattenNl [] = [] := rfl

theorem flattenNl_cons (l : List Char) (ls : List (List Char)) :
    flattenNl (l :: ls) = l ++ '\n' :: flattenNl ls := rfl

theorem flattenNl_append (xs ys : List (List Char)) :
    flattenNl (xs ++ ys) = flattenNl xs ++ flattenNl ys := by
  induction xs with
  | nil => rfl
  | cons l ls ih => simp [flattenNl_cons, ih]

theorem joinNl_append {ys : List (List Char)} (h : ys ≠ []) (xs : List (List Char)) :
    joinNl (xs ++ ys) = flattenNl xs ++ joinNl ys := by
  induction xs with
  | nil => rfl
  | cons l ls ih =>
    rw [List.cons_append, joinNl_cons (by simp [h]), ih, flattenNl_cons]
    simp

theorem splitNl_flattenNl {ls : List (List Char)} (h : ∀ l ∈ ls, '\n' ∉ l) :
    splitNl (flattenNl ls) = ls ++ [[]] := by
  induction ls with
  | nil => rfl
  | cons l ls' ih =>
    rw [flattenNl_cons, splitNl_append_noNl (h l (by simp)),
      ih (fun x hx => h x (List.mem_cons_of_mem l hx))]
    rfl

theorem pySplitlines_flattenNl {ls : List (List Char)} (h : ∀ l ∈ ls, '\n' ∉ l) :
    pySplitlines (flattenNl ls) = ls := by
  unfold pySplitlines
  rw [splitNl_flattenNl h]
  simp

theorem pySplitlines_joinNl {ls : List (List Char)} (h : ∀ l ∈ ls, '\n' ∉ l)
    (h2 : ls ≠ []) (h3 : ls.getLast? ≠ some []) : pySplitlines (joinNl ls) = ls := by
  unfold pySplitlines
  rw [splitNl_joinNl h h2]
  simp [h3]

theorem keepParts_cons {sp : List (List Char)} (h : sp ≠ []) (l0 : List Char) :
    keepParts (l0 :: sp) = (l0 ++ ['\n']) :: keepParts sp := by
  cases sp with
  | nil => exact absurd rfl h
  | cons x xs => simp [keepParts]

theorem flatten_keepParts {ps : List (List Char)} (h : ps ≠ []) :
    (keepParts ps).flatten = joinNl ps := by
  induction ps with
  | nil => exact absurd rfl h
  | cons l ls ih =>
    cases ls with
    | nil =>
      cases l with
      | nil => rfl
      | cons c cs => simp [keepParts, joinNl]
    | cons l' ls' =>
      rw [keepParts_cons (by simp), joinNl_cons (by simp)]
      rw [List.flatten_cons, ih (by simp)]
      simp

theorem flatten_pySplitKeep (t : List Char) : (pySplitKeep t).flatten = t := by
  rw [pySplitKeep, flatten_keepParts (splitNl_ne_nil t), joinNl_splitNl]

theorem pySplitKeep_cons_line {l0 : List Char} (h : '\n' ∉ l0) (rest : List Char) :
    pySplitKeep (l0 ++ '\n' :: rest) = (l0 ++ ['\n']) :: pySplitKeep rest := by
  rw [pySplitKeep, splitNl_append_noNl h, keepParts_cons (splitNl_ne_nil rest)]
  rfl

theorem pySplitKeep_noNl {t : List Char} (h : '\n' ∉ t) (h2 : t ≠ []) :
    pySplitKeep t = [t] := by
  cases t with
  | nil => exact absurd rfl h2
  | cons c cs => rw [pySplitKeep, splitNl_noNl h]; simp [keepParts]

theorem endMarker_content : isContentLine endMarker = true := by decide

theorem startMarker_content : isContentLine startMarker = true := by decide

theorem lastEndIdx_cons_not {l : List Char} (h : isContentLine l = false)
    (ls : List (List Char)) : lastEndIdx (l :: ls) = none := by
  simp [lastEndIdx, h]

theorem lastEndIdx_cons_content {l : List Char} (h : isContentLine l = true)
    (ls : List (List Char)) :
    lastEndIdx (l :: ls) =
      (match lastEndIdx ls with
       | some k => some (k + 1)
       | none => if l == endMarker then some 0 else none) := by
  simp [lastEndIdx, h]

theorem lastEndIdx_append_bad {xs : List (List Char)}
    (h : ∃ x ∈ xs, isContentLine x = false) (ys : List (List Char)) :
    lastEndIdx (xs ++ ys) = lastEndIdx xs := by
  induction xs with
  | nil => simp at h
  | cons x xs' ih =>
    by_cases hx : isContentLine x = true
    · have h' : ∃ y ∈ xs', isContentLine y = false := by
        rcases h with ⟨y, hy, hyf⟩
        rcases List.mem_cons.mp hy with rfl | hy'
        · rw [hx] at hyf; cases hyf
        · exact ⟨y, hy', hyf⟩
      rw [List.cons_append, lastEndIdx_cons_content hx, lastEndIdx_cons_content hx, ih h']
    · rw [Bool.not_eq_true] at hx
      rw [List.cons_append, lastEndIdx_cons_not hx, lastEndIdx_cons_not hx]

theorem lastEndIdx_run {mid S : List (List Char)}
    (hmid : ∀ l ∈ mid, isContentLine l = true) (hS : lastEndIdx S = none) :
    lastEndIdx (mid ++ endMarker :: S) = some mid.length := by
  induction mid with
  | nil =>
    rw [List.nil_append, lastEndIdx_cons_content endMarker_content, hS]
    simp
  | cons m mid' ih =>
    rw [List.cons_append, lastEndIdx_cons_content (hmid m (by simp)),
      ih (fun l hl => hmid l (List.mem_cons_of_mem m hl))]
    simp

theorem lastEndIdx_run_ge {mid S : List (List Char)}
    (hmid : ∀ l ∈ mid, isContentLine l = true) :
    ∃ k, lastEndIdx (mid ++ endMarker :: S) = some k ∧ mid.length ≤ k := by
  induction mid with
  | nil =>
    rw [List.nil_append, lastEndIdx_cons_content endMarker_content]
    cases hS : lastEndIdx S with
    | none => exact ⟨0, by simp, Nat.zero_le 0⟩
    | some k => exact ⟨k + 1, by simp, Nat.zero_le _⟩
  | cons m mid' ih =>
    rcases ih (fun l hl => hmid l (List.mem_cons_of_mem m hl)) with ⟨k, hk, hle⟩
    refine ⟨k + 1, ?_, by simpa using Nat.succ_le_succ hle⟩
    rw [List.cons_append, lastEndIdx_cons_content (hmid m (by simp)), hk]

theorem lastEndIdx_some {ls : List (List Char)} {k : Nat}
    (h : lastEndIdx ls = some k) :
    k < ls.length ∧ (∀ m, m ≤ k → isContentLine (ls.getD m []) = true) ∧
      ls.getD k [] = endMarker ∧ lastEndIdx (ls.drop (k + 1)) = none := by
  induction ls generalizing k with
  | nil => simp [lastEndIdx] at h
  | cons l ls' ih =>
    by_cases hl : isContentLine l = true
    · rw [lastEndIdx_cons_content hl] at h
      cases hr : lastEndIdx ls' with
      | some k' =>
        rw [hr] at h
        simp only [Option.some.injEq] at h
        subst h
        obtain ⟨hlt, hall, hend, hnone⟩ := ih hr
        refine ⟨by simpa using Nat.succ_lt_succ hlt, ?_, by simpa using hend, by simpa using hnone⟩
        intro m hm
        cases m with
        | zero => simpa using hl
        | succ m' => simpa using hall m' (Nat.le_of_succ_le_succ hm)
      | none =>
        rw [hr] at h
        by_cases he : l = endMarker
        · simp only [he, beq_self_eq_true, if_true, Option.some.injEq] at h
          subst h
          refine ⟨by simp, ?_, by simpa using he, by simpa using hr⟩
          intro m hm
          interval_cases m
          simpa using hl
        · simp [he] at h
    · rw [Bool.not_eq_true] at hl
      rw [lastEndIdx_cons_not hl] at h
      cases h

theorem startMarker_ne_nil : startMarker ≠ [] := by decide

theorem getD_marker_lt {parts : List (List Char)} {i : Nat}
    (h : parts.getD i [] = startMarker) : i < parts.length := by
  by_contra hlt
  rw [Nat.not_lt] at hlt
  rw [List.getD_eq_default _ _ hlt] at h
  exact startMarker_ne_nil h.symm

theorem tryMatchAt_none_of_ne {parts : List (List Char)} {i : Nat}
    (h : parts.getD i [] ≠ startMarker) : tryMatchAt parts i = none := by
  unfold tryMatchAt
  rw [if_neg h]

theorem tryMatchAt_oob {parts : List (List Char)} {i : Nat}
    (h : parts.length ≤ i) : tryMatchAt parts i = none := by
  apply tryMatchAt_none_of_ne
  rw [List.getD_eq_default _ _ h]
  exact fun hh => startMarker_ne_nil hh.symm

theorem tryMatchAt_marker {parts : List (List Char)} {i : Nat}
    (h : parts.getD i [] = startMarker) :
    tryMatchAt parts i =
      (match lastEndIdx (parts.drop (i + 1)) with
       | some idx => if 1 ≤ idx then some idx else none
       | none => none) := by
  unfold tryMatchAt
  rw [if_pos h]

theorem tryMatchAt_some {parts : List (List Char)} {i idx : Nat}
    (h : tryMatchAt parts i = some idx) :
    parts.getD i [] = startMarker ∧ lastEndIdx (parts.drop (i + 1)) = some idx ∧
      1 ≤ idx := by
  by_cases hm : parts.getD i [] = startMarker
  · rw [tryMatchAt_marker hm] at h
    cases hr : lastEndIdx (parts.drop (i + 1)) with
    | none => rw [hr] at h; cases h
    | some idx' =>
      rw [hr] at h
      dsimp only at h
      by_cases h1 : 1 ≤ idx'
      · rw [if_pos h1] at h
        injection h with h
        subst h
        exact ⟨hm, rfl, h1⟩
      · simp [h1] at h
  · rw [tryMatchAt_none_of_ne hm] at h
    cases h

theorem tryMatchAt_shift (X S : List (List Char)) (k : Nat) :
    tryMatchAt (X ++ S) (X.length + k) = tryMatchAt S k := by
  have hg : (X ++ S).getD (X.length + k) [] = S.getD k [] := by
    rw [List.getD_append_right _ _ _ _ (Nat.le_add_right _ _)]
    simp
  have hd : (X ++ S).drop (X.length + k + 1) = S.drop (k + 1) := by
    have he : X.length + k + 1 = X.length + (k + 1) := by omega
    rw [he, ← List.drop_drop (k + 1) X.length, List.drop_left]
  rw [tryMatchAt, tryMatchAt, hg, hd]

theorem findFromF_oob {parts : List (List Char)} {i : Nat}
    (h : parts.length ≤ i) (fuel : Nat) : findFromF fuel parts i = [] := by
  cases fuel with
  | zero => rfl
  | succ f => simp [findFromF, Nat.not_lt.mpr h]

theorem findFromF_step_none {parts : List (List Char)} {i : Nat}
    (h : tryMatchAt parts i = none) (fuel : Nat) :
    findFromF (fuel + 1) parts i = findFromF fuel parts (i + 1) := by
  by_cases hi : i < parts.length
  · simp [findFromF, hi, h]
  · rw [Nat.not_lt] at hi
    rw [findFromF_oob hi, findFromF_oob (Nat.le_succ_of_le hi)]

theorem findFromF_step_some {parts : List (List Char)} {i idx : Nat}
    (h : tryMatchAt parts i = some idx) (fuel : Nat) :
    findFromF (fuel + 1) parts i = (i, i + 1 + idx) :: findFromF fuel parts (i + 2 + idx) := by
  have hi : i < parts.length := getD_marker_lt (tryMatchAt_some h).1
  simp [findFromF, hi, h]

theorem findFromF_fuel {parts : List (List Char)} :
    ∀ fuel1 fuel2 i, parts.length ≤ i + fuel1 → parts.length ≤ i + fuel2 →
      findFromF fuel1 parts i = findFromF fuel2 parts i := by
  intro fuel1
  induction fuel1 with
  | zero =>
    intro fuel2 i h1 h2
    rw [findFromF_oob (by omega)]
    rw [findFromF_oob (by omega)]
  | succ f ih =>
    intro fuel2 i h1 h2
    cases fuel2 with
    | zero =>
      rw [findFromF_oob (by omega), findFromF_oob (by omega)]
    | succ f2 =>
      cases hm : tryMatchAt parts i with
      | none =>
        rw [findFromF_step_none hm, findFromF_step_none hm]
        exact ih f2 (i + 1) (by omega) (by omega)
      | some idx =>
        rw [findFromF_step_some hm, findFromF_step_some hm]
        rw [ih f2 (i + 2 + idx) (by omega) (by omega)]

theorem findFrom_oob {parts : List (List Char)} {i : Nat}
    (h : parts.length ≤ i) : findFrom parts i = [] :=
  findFromF_oob h _

theorem findFrom_step_none {parts : List (List Char)} {i : Nat}
    (h : tryMatchAt parts i = none) : findFrom parts i = findFrom parts (i + 1) := by
  rw [findFrom, findFromF_step_none h]
  exact findFromF_fuel _ _ _ (by omega) (by omega)

theorem findFrom_step_some {parts : List (List Char)} {i idx : Nat}
    (h : tryMatchAt parts i = some idx) :
    findFrom parts i = (i, i + 1 + idx) :: findFrom parts (i + 2 + idx) := by
  rw [findFrom, findFromF_step_some h]
  rw [findFromF_fuel _ (parts.length + 1) _ (by omega) (by omega)]
  rfl

theorem findFrom_all_none {parts : List (List Char)} {s : Nat}
    (h : ∀ l, s ≤ l → tryMatchAt parts l = none) : findFrom parts s = [] := by
  rw [findFrom]
  generalize parts.length + 1 = fuel
  induction fuel generalizing s with
  | zero => rfl
  | succ f ih =>
    rw [findFromF_step_none (h s (Nat.le_refl s))]
    exact ih (fun l hl => h l (by omega))

theorem findFrom_skip {parts : List (List Char)} (k : Nat) :
    ∀ s, (∀ l, s ≤ l → l < s + k → tryMatchAt parts l = none) →
      findFrom parts s = findFrom parts (s + k) := by
  induction k with
  | zero => intro s _; rfl
  | succ k' ih =>
    intro s h
    rw [findFrom_step_none (h s (Nat.le_refl s) (by omega))]
    rw [ih (s + 1) (fun l hl1 hl2 => h l (by omega) (by omega))]
    congr 1
    omega

theorem findFrom_nil_inv {parts : List (List Char)} :
    ∀ k s, parts.length ≤ s + k → findFrom parts s = [] →
      ∀ l, s ≤ l → tryMatchAt parts l = none := by
  intro k
  induction k with
  | zero =>
    intro s hk _ l hl
    exact tryMatchAt_oob (by omega)
  | succ k' ih =>
    intro s hk hnil l hl
    cases hm : tryMatchAt parts s with
    | some idx => rw [findFrom_step_some hm] at hnil; cases hnil
    | none =>
      rcases Nat.eq_or_lt_of_le hl with rfl | hlt
      · exact hm
      · rw [findFrom_step_none hm] at hnil
        exact ih (s + 1) (by omega) hnil l hlt

theorem findFrom_cons_inv {parts : List (List Char)} :
    ∀ k s i j rest, parts.length ≤ s + k → findFrom parts s = (i, j) :: rest →
      s ≤ i ∧ (∀ l, s ≤ l → l < i → tryMatchAt parts l = none) ∧
        (∃ idx, tryMatchAt parts i = some idx ∧ j = i + 1 + idx) ∧
        findFrom parts (j + 1) = rest := by
  intro k
  induction k with
  | zero =>
    intro s i j rest hk hcons
    rw [findFrom_oob (by omega)] at hcons
    cases hcons
  | succ k' ih =>
    intro s i j rest hk hcons
    cases hm : tryMatchAt parts s with
    | some idx =>
      rw [findFrom_step_some hm] at hcons
      injection hcons with h1 h2
      injection h1 with hi hj
      subst hi; subst hj
      refine ⟨Nat.le_refl s, fun l hl1 hl2 => absurd hl1 (by omega), ⟨idx, hm, rfl⟩, ?_⟩
      rw [← h2]
      congr 1
      omega
    | none =>
      rw [findFrom_step_none hm] at hcons
      obtain ⟨hsi, hnone, hsome, hrest⟩ := ih (s + 1) i j rest (by omega) hcons
      refine ⟨by omega, ?_, hsome, hrest⟩
      intro l hl1 hl2
      rcases Nat.eq_or_lt_of_le hl1 with rfl | hlt
      · exact hm
      · exact hnone l hlt hl2

theorem findFrom_mem {parts : List (List Char)} :
    ∀ k s i j, parts.length ≤ s + k → (i, j) ∈ findFrom parts s →
      ∃ idx, tryMatchAt parts i = some idx ∧ j = i + 1 + idx := by
  intro k
  induction k with
  | zero =>
    intro s i j hk hmem
    rw [findFrom_oob (by omega)] at hmem
    cases hmem
  | succ k' ih =>
    intro s i j hk hmem
    cases hf : findFrom parts s with
    | nil => rw [hf] at hmem; cases hmem
    | cons m rest =>
      obtain ⟨i0, j0⟩ := m
      obtain ⟨hsi, _, ⟨idx0, hm0, hj0⟩, hrest⟩ := findFrom_cons_inv (k' + 1) s i0 j0 rest hk hf
      rw [hf] at hmem
      rcases List.mem_cons.mp hmem with heq | hmem'
      · injection heq with h1 h2
        subst h1; subst h2
        exact ⟨idx0, hm0, hj0⟩
      · rw [← hrest] at hmem'
        exact ih (j0 + 1) i j (by omega) hmem'

/-- C4: the claim says the Shebang Normalizer replaces only the first line
and preserves everything after it, and that "#!/usr/bin/env python\nprint("hi")\n"
maps to "#!/usr/bin/env uvrs\nprint("hi")\n".  The code joins
`splitlines()[1:]` with newlines, which loses the trailing newline of the
file: the scenario input actually maps to "#!/usr/bin/env uvrs\nprint("hi")"
with no trailing newline, contradicting the spec scenario. -/
theorem fix_shebang_drops_trailing_newline :
    fix_shebang "#!/usr/bin/env python\nprint(\"hi\")\n".data
        = "#!/usr/bin/env uvrs\nprint(\"hi\")".data ∧
      fix_shebang "#!/usr/bin/env python\nprint(\"hi\")\n".data
        ≠ "#!/usr/bin/env uvrs\nprint(\"hi\")\n".data := by
  constructor
  · decide
  · decide

/-- C8: the claim says applying the Shebang Normalizer to its own output is
a no-op for every file text.  It is not: on "x\n" the first application
prepends the shebang line giving "#!/usr/bin/env uvrs\nx\n", and the second
application drops the trailing newline, so the second output differs from
the first. -/
theorem fix_shebang_not_idempotent :
    fix_shebang (fix_shebang "x\n".data) ≠ fix_shebang "x\n".data ∧
      fix_shebang "x\n".data = "#!/usr/bin/env uvrs\nx\n".data ∧
      fix_shebang (fix_shebang "x\n".data) = "#!/usr/bin/env uvrs\nx".data := by
  refine ⟨?_, ?_, ?_⟩ <;> decide

/-- C10: the locator errors exactly when the regex finds at least two
disjoint matches; and two well-formed blocks separated only by
content-shaped comment lines are consumed as one single greedy match
running from the first start marker to the last end marker, so the locator
reports one block and raises no error there. -/
theorem locator_merges_adjacent_blocks :
    (∀ t, extract_metadata_block t = .error .multipleBlocks ↔
      2 ≤ (findBlocks (splitNl t)).length) ∧
    (∀ mid1 mid2 C S : List (List Char),
      (∀ l ∈ mid1, isContentLine l = true) → mid1 ≠ [] →
      (∀ l ∈ mid2, isContentLine l = true) → mid2 ≠ [] →
      (∀ l ∈ C, isContentLine l = true) →
      (∀ l ∈ S, l ≠ startMarker) → lastEndIdx S = none →
      (∀ l ∈ (startMarker :: mid1 ++ [endMarker]) ++ C ++
          (startMarker :: mid2 ++ [endMarker]) ++ S, '\n' ∉ l) →
      findBlocks ((startMarker :: mid1 ++ [endMarker]) ++ C ++
          (startMarker :: mid2 ++ [endMarker]) ++ S)
          = [(0, mid1.length + C.length + mid2.length + 3)] ∧
        extract_metadata_block (joinNl ((startMarker :: mid1 ++ [endMarker]) ++ C ++
            (startMarker :: mid2 ++ [endMarker]) ++ S))
          = .ok (some (0, mid1.length + C.length + mid2.length + 3))) := by
  constructor
  · intro t
    unfold extract_metadata_block
    rcases h : findBlocks (splitNl t) with _ | ⟨m1, _ | ⟨m2, rest⟩⟩
    · simp
    · simp
    · simp
  · intro mid1 mid2 C S hm1 hne1 hm2 hne2 hC hS hSend hnl
    set parts := (startMarker :: mid1 ++ [endMarker]) ++ C ++
      (startMarker :: mid2 ++ [endMarker]) ++ S with hpartsdef
    have hparts : parts =
        startMarker :: ((mid1 ++ endMarker :: C ++ startMarker :: mid2) ++ endMarker :: S) := by
      simp [hpartsdef, List.append_assoc]
    have hMIDcontent : ∀ l ∈ mid1 ++ endMarker :: C ++ startMarker :: mid2,
        isContentLine l = true := by
      intro l hl
      simp only [List.mem_append, List.mem_cons] at hl
      have hl' : l ∈ mid1 ∨ l = endMarker ∨ l ∈ C ∨ l = startMarker ∨ l ∈ mid2 := by
        tauto
      rcases hl' with h | h | h | h | h
      · exact hm1 l h
      · exact h ▸ endMarker_content
      · exact hC l h
      · exact h ▸ startMarker_content
      · exact hm2 l h
    have hlast : lastEndIdx (parts.drop 1) =
        some (mid1.length + C.length + mid2.length + 2) := by
      rw [hparts]
      have := lastEndIdx_run hMIDcontent hSend
      simp only [List.drop_succ_cons, List.drop_zero]
      rw [this]
      congr 1
      simp
      omega
    have h0 : tryMatchAt parts 0 = some (mid1.length + C.length + mid2.length + 2) := by
      have hm : parts.getD 0 [] = startMarker := by rw [hparts]; rfl
      rw [tryMatchAt_marker hm, hlast]
      simp
    have hXlen : (startMarker :: ((mid1 ++ endMarker :: C ++ startMarker :: mid2) ++ [endMarker])).length
        = mid1.length + C.length + mid2.length + 4 := by
      simp
      omega
    have hXS : parts = (startMarker :: ((mid1 ++ endMarker :: C ++ startMarker :: mid2) ++ [endMarker])) ++ S := by
      rw [hparts]
      simp [List.append_assoc]
    have htail : ∀ l, mid1.length + C.length + mid2.length + 4 ≤ l →
        tryMatchAt parts l = none := by
      intro l hl
      by_cases hlen : l < parts.length
      · have hk : l = (startMarker :: ((mid1 ++ endMarker :: C ++ startMarker :: mid2) ++ [endMarker])).length +
            (l - (mid1.length + C.length + mid2.length + 4)) := by
          rw [hXlen]; omega
        rw [hXS, hk, tryMatchAt_shift]
        apply tryMatchAt_none_of_ne
        set k := l - (mid1.length + C.length + mid2.length + 4) with hkdef
        by_cases hkS : k < S.length
        · rw [List.getD_eq_getElem S [] hkS]
          exact hS _ (List.getElem_mem hkS)
        · rw [List.getD_eq_default _ _ (Nat.not_lt.mp hkS)]
          exact fun hh => startMarker_ne_nil hh.symm
      · exact tryMatchAt_oob (Nat.not_lt.mp hlen)
    have hfb : findBlocks parts = [(0, mid1.length + C.length + mid2.length + 3)] := by
      rw [findBlocks, findFrom_step_some h0]
      rw [findFrom_all_none (fun l hl => htail l (by omega))]
      norm_num
      omega
    refine ⟨hfb, ?_⟩
    have hsplit : splitNl (joinNl parts) = parts := by
      apply splitNl_joinNl hnl
      rw [hparts]
      simp
    rw [extract_metadata_block, hsplit, hfb]

theorem locator_merges_adjacent_blocks_witness :
    findBlocks ((startMarker :: [['#']] ++ [endMarker]) ++ [] ++
        (startMarker :: [['#']] ++ [endMarker]) ++ [['x']]) = [(0, 5)] ∧
      extract_metadata_block (joinNl ((startMarker :: [['#']] ++ [endMarker]) ++ [] ++
          (startMarker :: [['#']] ++ [endMarker]) ++ [['x']])) = .ok (some (0, 5)) := by
  have h := locator_merges_adjacent_blocks.2 [['#']] [['#']] [] [['x']]
    (by decide) (by decide) (by decide) (by decide) (by decide) (by decide)
    (by decide) (by decide)
  simpa using h

theorem noNl_startMarker : '\n' ∉ startMarker := by decide

theorem noNl_endMarker : '\n' ∉ endMarker := by decide

theorem take_two_ne_startMarker {t : List Char} (h : t.take 2 = "#!".data) :
    t ≠ startMarker := by
  intro he
  subst he
  exact absurd h (by decide)

theorem findBlocks_singleline {t : List Char} (hsb : t.take 2 = "#!".data)
    (hnl : '\n' ∉ t) : findBlocks (splitNl t) = [] := by
  rw [splitNl_noNl hnl, findBlocks]
  rw [findFrom_step_none (tryMatchAt_none_of_ne (by
    simpa using take_two_ne_startMarker hsb))]
  exact findFrom_oob (by simp)

/-- C9: a file that opens with "#!" but contains no newline character (and
no block) gets the synthesized block glued directly onto the shebang text:
the output's first line is the original text immediately followed by
"# /// script" with no newline in between. -/
theorem stamp_glues_block_onto_bare_shebang (t ts : List Char)
    (hsb : t.take 2 = "#!".data) (hnl : '\n' ∉ t) :
    update_exclude_newer ts t
        = .ok (t ++ format_metadata (toml_dumps (minimalDoc ts)) ++ ['\n']) ∧
      (splitNl (t ++ format_metadata (toml_dumps (minimalDoc ts)) ++ ['\n'])).headD []
        = t ++ startMarker := by
  have htne : t ≠ [] := by
    intro he
    rw [he] at hsb
    exact absurd hsb (by decide)
  have hnb : findBlocks (splitNl t) = [] := findBlocks_singleline hsb hnl
  have hex : extract_metadata_block t = .ok none := by
    rw [extract_metadata_block, hnb]
  constructor
  · unfold update_exclude_newer
    rw [hex]
    dsimp only
    rw [if_pos hsb, pySplitKeep_noNl hnl htne]
    dsimp only [List.headD, List.tail]
    simp
  · have hform : format_metadata (toml_dumps (minimalDoc ts)) =
        startMarker ++ '\n' :: (joinNl ((pySplitlines (toml_dumps (minimalDoc ts))).map frameLine) ++ "\n# ///".data) := by
      rw [format_metadata]
      have : "# /// script\n".data = startMarker ++ ['\n'] := by decide
      rw [this]
      simp
    rw [hform]
    have hre : t ++ (startMarker ++ '\n' :: (joinNl ((pySplitlines (toml_dumps (minimalDoc ts))).map frameLine) ++ "\n# ///".data)) ++ ['\n']
        = (t ++ startMarker) ++ '\n' :: ((joinNl ((pySplitlines (toml_dumps (minimalDoc ts))).map frameLine) ++ "\n# ///".data) ++ ['\n']) := by
      simp
    rw [hre, splitNl_append_noNl (by
      intro hm
      rcases List.mem_append.mp hm with h | h
      · exact hnl h
      · exact noNl_startMarker h)]
    rfl

/-- C3: a text consisting of two well-formed blocks separated by a
non-comment line produces at least two regex matches, so the locator
raises the multiple-blocks ValueError and update_exclude_newer propagates
it, producing no output text (the model returns no new content, matching
the code which raises before any write). -/
theorem update_multiple_blocks (mid1 mid2 : List (List Char)) (m : List Char)
    (S : List (List Char)) (ts : List Char)
    (hm1 : ∀ l ∈ mid1, isContentLine l = true) (hne1 : mid1 ≠ [])
    (hm2 : ∀ l ∈ mid2, isContentLine l = true) (hne2 : mid2 ≠ [])
    (hmc : isContentLine m = false)
    (hnl : ∀ l ∈ (startMarker :: mid1 ++ [endMarker]) ++ m ::
        ((startMarker :: mid2 ++ [endMarker]) ++ S), '\n' ∉ l) :
    extract_metadata_block (joinNl ((startMarker :: mid1 ++ [endMarker]) ++ m ::
        ((startMarker :: mid2 ++ [endMarker]) ++ S))) = .error .multipleBlocks ∧
      update_exclude_newer ts (joinNl ((startMarker :: mid1 ++ [endMarker]) ++ m ::
        ((startMarker :: mid2 ++ [endMarker]) ++ S))) = .error .multipleBlocks := by
  set X1 : List (List Char) := startMarker :: mid1 ++ [endMarker] with hX1
  set X2 : List (List Char) := startMarker :: mid2 ++ [endMarker] with hX2
  set parts : List (List Char) := X1 ++ m :: (X2 ++ S) with hpartsdef
  have hX1len : X1.length = mid1.length + 2 := by simp [hX1]
  have h0 : tryMatchAt parts 0 = some mid1.length := by
    have hm : parts.getD 0 [] = startMarker := by rw [hpartsdef, hX1]; rfl
    rw [tryMatchAt_marker hm]
    have hdrop : parts.drop 1 = mid1 ++ endMarker :: (m :: (X2 ++ S)) := by
      rw [hpartsdef, hX1]
      simp
    rw [hdrop, lastEndIdx_run hm1 (lastEndIdx_cons_not hmc _)]
    dsimp only
    have hp : 1 ≤ mid1.length := List.length_pos.mpr hne1
    rw [if_pos hp]
  have hskip : tryMatchAt parts (X1.length + 0) = none := by
    rw [hpartsdef, tryMatchAt_shift]
    apply tryMatchAt_none_of_ne
    intro he
    rw [show (m :: (X2 ++ S)).getD 0 [] = m from rfl] at he
    rw [he, startMarker_content] at hmc
    cases hmc
  obtain ⟨k2, hk2, hk2ge⟩ :
      ∃ k, lastEndIdx (mid2 ++ endMarker :: S) = some k ∧ mid2.length ≤ k :=
    lastEndIdx_run_ge hm2
  have hhit2 : tryMatchAt parts (X1.length + 1) = some k2 := by
    rw [hpartsdef, tryMatchAt_shift]
    have : tryMatchAt (m :: (X2 ++ S)) 1 = tryMatchAt (X2 ++ S) 0 := by
      have := tryMatchAt_shift [m] (X2 ++ S) 0
      simpa using this
    rw [this]
    have hm : (X2 ++ S).getD 0 [] = startMarker := by rw [hX2]; rfl
    rw [tryMatchAt_marker hm]
    have hdrop : (X2 ++ S).drop 1 = mid2 ++ endMarker :: S := by
      rw [hX2]; simp
    rw [hdrop, hk2]
    dsimp only
    have hp2 : 1 ≤ k2 := le_trans (List.length_pos.mpr hne2) hk2ge
    rw [if_pos hp2]
  have hshape : ∃ a b rest, findBlocks parts = a :: b :: rest := by
    rw [findBlocks, findFrom_step_some h0]
    have he1 : 0 + 2 + mid1.length = X1.length + 0 := by omega
    rw [he1, findFrom_step_none hskip]
    have he2 : X1.length + 0 + 1 = X1.length + 1 := by omega
    rw [he2, findFrom_step_some hhit2]
    exact ⟨_, _, _, rfl⟩
  obtain ⟨a, b, rest, hfb⟩ := hshape
  have hsplit : splitNl (joinNl parts) = parts := by
    apply splitNl_joinNl hnl
    rw [hpartsdef, hX1]
    simp
  have hext : extract_metadata_block (joinNl parts) = .error .multipleBlocks := by
    rw [extract_metadata_block, hsplit, hfb]
  refine ⟨hext, ?_⟩
  unfold update_exclude_newer
  rw [hext]

theorem stripLine_eq_spec {l : List Char} (h : isContentLine l = true) :
    stripLine l = spec_strip l := by
  rw [isContentLine] at h
  rcases Bool.or_eq_true_iff.mp h with h | h
  · have : l = ['#'] := by simpa using h
    subst this
    decide
  · have h2 : l.take 2 = ['#', ' '] := by simpa using h
    cases l with
    | nil => simp at h2
    | cons a l' =>
      cases l' with
      | nil => simp at h2
      | cons b r =>
        simp only [List.take, List.cons.injEq] at h2
        obtain ⟨rfl, rfl, -⟩ := h2
        simp [stripLine, removePre, spec_strip, List.isPrefixOf]

theorem mem_innerLines_content {parts : List (List Char)} {i j : Nat} {idx : Nat}
    (htm : tryMatchAt parts i = some idx) (hj : j = i + 1 + idx) :
    ∀ l ∈ innerLines parts i j, isContentLine l = true := by
  obtain ⟨hmark, hlast, hge⟩ := tryMatchAt_some htm
  obtain ⟨hlt, hall, hend, hnone⟩ := lastEndIdx_some hlast
  intro l hl
  rw [innerLines, show j - (i + 1) = idx from by omega] at hl
  obtain ⟨n, hn, hln⟩ := List.getElem_of_mem hl
  have hn2 : n < idx := lt_of_lt_of_le hn (List.length_take_le idx _)
  have hn3 : n < (parts.drop (i + 1)).length := lt_trans hn2 hlt
  have hgd : (parts.drop (i + 1)).getD n [] = l := by
    rw [List.getD_eq_getElem _ [] hn3, ← hln, List.getElem_take]
  rw [← hgd]
  exact hall n (by omega)

theorem mem_innerLines_subset {parts : List (List Char)} {i j : Nat} {l : List Char}
    (hl : l ∈ innerLines parts i j) : l ∈ parts := by
  rw [innerLines] at hl
  exact List.mem_of_mem_drop (List.mem_of_mem_take hl)

/-- C7: for every matched metadata block, parse_metadata on the raw content
group equals the decoding the spec describes: take each line strictly
between the markers, strip exactly one leading "#", then at most one
leading space, and join with single newlines; in particular a bare "#"
line decodes to an empty line. -/
theorem parse_metadata_decoding_law (t : List Char) (i j : Nat)
    (hclean : Clean t) (hmem : (i, j) ∈ findBlocks (splitNl t)) :
    parse_metadata (contentGroup (splitNl t) i j)
        = spec_decode (innerLines (splitNl t) i j) ∧
      stripLine ['#'] = [] := by
  obtain ⟨idx, htm, hj⟩ :=
    findFrom_mem (splitNl t).length 0 i j (by omega) hmem
  have hcontent := mem_innerLines_content htm hj
  have hnonl : ∀ l ∈ innerLines (splitNl t) i j, '\n' ∉ l := by
    intro l hl
    exact noNl_of_mem_splitNl (mem_innerLines_subset hl)
  constructor
  · rw [parse_metadata, contentGroup, pySplitlines_flattenNl hnonl, spec_decode]
    congr 1
    exact List.map_congr_left (fun l hl => stripLine_eq_spec (hcontent l hl))
  · decide

theorem parse_metadata_decoding_law_witness :
    parse_metadata (contentGroup (splitNl "# /// script\n#\n# x\n# ///".data) 0 3)
        = spec_decode (innerLines (splitNl "# /// script\n#\n# x\n# ///".data) 0 3) ∧
      stripLine ['#'] = [] :=
  parse_metadata_decoding_law "# /// script\n#\n# x\n# ///".data 0 3
    (by decide) (by decide)

theorem update_multiple_blocks_witness :
    extract_metadata_block (joinNl ((startMarker :: [['#']] ++ [endMarker]) ++ ['x'] ::
        ((startMarker :: [['#']] ++ [endMarker]) ++ []))) = .error .multipleBlocks ∧
      update_exclude_newer "2024-01-01T00:00:00Z".data
        (joinNl ((startMarker :: [['#']] ++ [endMarker]) ++ ['x'] ::
          ((startMarker :: [['#']] ++ [endMarker]) ++ []))) = .error .multipleBlocks :=
  update_multiple_blocks [['#']] [['#']] ['x'] [] "2024-01-01T00:00:00Z".data
    (by decide) (by decide) (by decide) (by decide) (by decide) (by decide)

theorem stamp_glues_block_onto_bare_shebang_witness :
    update_exclude_newer "2024-01-01T00:00:00Z".data "#!x".data
        = .ok ("#!x".data ++
            format_metadata (toml_dumps (minimalDoc "2024-01-01T00:00:00Z".data)) ++ ['\n']) ∧
      (splitNl ("#!x".data ++
          format_metadata (toml_dumps (minimalDoc "2024-01-01T00:00:00Z".data)) ++ ['\n'])).headD []
        = "#!x".data ++ startMarker :=
  stamp_glues_block_onto_bare_shebang "#!x".data "2024-01-01T00:00:00Z".data
    (by decide) (by decide)

/-- C5 (amended): when the locator finds no block, the synthesized minimal
block is inserted after the first line when the file begins with a shebang
line that is newline-terminated (shebang untouched as line 1, block from
line 2), and at the very start otherwise, in both cases followed by a
single newline and the untouched original content (the closing marker
line and the first original line become adjacent lines; no blank line is
inserted).  The unamended claim fails on a shebang-only file with no
newline, where the block is glued onto the shebang text (see the
counterexample and C9). -/
theorem stamp_insertion_policy (t ts : List Char) (hclean : Clean t)
    (hnb : findBlocks (splitNl t) = []) :
    (t.take 2 = "#!".data → ∀ l0 rest, t = l0 ++ '\n' :: rest → '\n' ∉ l0 →
      update_exclude_newer ts t
        = .ok (l0 ++ '\n' :: (format_metadata (toml_dumps (minimalDoc ts)) ++ '\n' :: rest))) ∧
    (t.take 2 ≠ "#!".data →
      update_exclude_newer ts t
        = .ok (format_metadata (toml_dumps (minimalDoc ts)) ++ '\n' :: t)) := by
  have hex : extract_metadata_block t = .ok none := by
    rw [extract_metadata_block, hnb]
  constructor
  · intro hsb l0 rest hdec hl0
    unfold update_exclude_newer
    rw [hex]
    dsimp only
    rw [if_pos hsb, hdec, pySplitKeep_cons_line hl0]
    dsimp only [List.headD, List.tail]
    rw [flatten_pySplitKeep]
    simp
  · intro hsb
    unfold update_exclude_newer
    rw [hex]
    dsimp only
    rw [if_neg hsb]

theorem stamp_insertion_policy_cex :
    (update_exclude_newer "2024-01-01T00:00:00Z".data "#!x".data).isOk = true ∧
      (splitNl (okOr (update_exclude_newer "2024-01-01T00:00:00Z".data "#!x".data))).headD []
        ≠ "#!x".data := by
  constructor
  · decide
  · decide

theorem stamp_insertion_policy_witness :
    update_exclude_newer "TS".data "#!/usr/bin/env python\nprint(\"hi\")\n".data
        = .ok ("#!/usr/bin/env python".data ++ '\n' ::
            (format_metadata (toml_dumps (minimalDoc "TS".data)) ++ '\n' :: "print(\"hi\")\n".data)) ∧
      update_exclude_newer "TS".data "print(\"hi\")\n".data
        = .ok (format_metadata (toml_dumps (minimalDoc "TS".data)) ++ '\n' :: "print(\"hi\")\n".data) := by
  constructor
  · exact (stamp_insertion_policy "#!/usr/bin/env python\nprint(\"hi\")\n".data "TS".data
      (by decide) (by decide)).1 (by decide) "#!/usr/bin/env python".data "print(\"hi\")\n".data
      (by decide) (by decide)
  · exact (stamp_insertion_policy "print(\"hi\")\n".data "TS".data
      (by decide) (by decide)).2 (by decide)

theorem getD_drop (l : List (List Char)) (m n : Nat) :
    (l.drop m).getD n [] = l.getD (m + n) [] := by
  by_cases h : n < (l.drop m).length
  · rw [List.getD_eq_getElem _ [] h, List.getElem_drop]
    rw [List.getD_eq_getElem _ [] (by
      rw [List.length_drop] at h
      omega)]
  · rw [List.getD_eq_default _ [] (Nat.not_lt.mp h)]
    rw [List.getD_eq_default _ [] (by
      rw [List.length_drop] at h
      omega)]

theorem flattenNl_eq_joinNl {ls : List (List Char)} (h : ls ≠ []) :
    flattenNl ls = joinNl ls ++ ['\n'] := by
  induction ls with
  | nil => exact absurd rfl h
  | cons l ls' ih =>
    cases ls' with
    | nil => simp [flattenNl_cons, flattenNl_nil, joinNl_single]
    | cons l' ls'' =>
      rw [flattenNl_cons, ih (by simp), joinNl_cons (by simp : (l' :: ls'') ≠ []) l]
      simp

theorem mem_removePre {c : Char} {p l : List Char} (h : c ∈ removePre p l) : c ∈ l := by
  rw [removePre] at h
  by_cases hp : p.isPrefixOf l
  · rw [if_pos hp] at h
    exact List.mem_of_mem_drop h
  · rwa [if_neg hp] at h

theorem mem_stripLine {c : Char} {l : List Char} (h : c ∈ stripLine l) : c ∈ l :=
  mem_removePre (mem_removePre h)

theorem frameLine_stripLine {l : List Char} (h : isContentLine l = true)
    (h2 : l ≠ "# ".data) : frameLine (stripLine l) = l := by
  rw [isContentLine] at h
  rcases Bool.or_eq_true_iff.mp h with h | h
  · have : l = ['#'] := by simpa using h
    subst this
    decide
  · have htk : l.take 2 = ['#', ' '] := by simpa using h
    cases l with
    | nil => simp at htk
    | cons a l' =>
      cases l' with
      | nil => simp at htk
      | cons b r =>
        simp only [List.take, List.cons.injEq] at htk
        obtain ⟨rfl, rfl, -⟩ := htk
        have hr : r ≠ [] := by
          intro he
          subst he
          exact h2 (by decide)
        have hs : stripLine ('#' :: ' ' :: r) = r := by
          simp [stripLine, removePre, List.isPrefixOf]
        rw [hs, frameLine, if_neg hr]

theorem innerLines_decomp {parts : List (List Char)} {i j idx : Nat}
    (htm : tryMatchAt parts i = some idx) (hj : j = i + 1 + idx) :
    (parts.drop i).take (j - i + 1) = startMarker :: (innerLines parts i j ++ [endMarker]) ∧
      (innerLines parts i j).length = idx := by
  obtain ⟨hmark, hlast, hge⟩ := tryMatchAt_some htm
  obtain ⟨hlt, hall, hend, hnone⟩ := lastEndIdx_some hlast
  have hilen : i < parts.length := getD_marker_lt hmark
  have hinlen : (innerLines parts i j).length = idx := by
    rw [innerLines, show j - (i + 1) = idx from by omega]
    rw [List.length_take, List.length_drop]
    rw [List.length_drop] at hlt
    omega
  refine ⟨?_, hinlen⟩
  have hd : parts.drop i = parts[i] :: parts.drop (i + 1) :=
    List.drop_eq_getElem_cons hilen
  have hgi : parts[i] = startMarker := by
    rw [← List.getD_eq_getElem _ [] hilen]
    exact hmark
  have hgE : (parts.drop (i + 1))[idx]? = some endMarker := by
    rw [List.getElem?_eq_getElem hlt, ← List.getD_eq_getElem _ [] hlt, hend]
  have hji : j - i + 1 = (idx + 1) + 1 := by omega
  rw [hd, hji, List.take_succ_cons, List.take_succ, hgE, hgi]
  rw [innerLines, show j - (i + 1) = idx from by omega]
  rfl

/-- C2 (amended): for a text in which the locator finds exactly one block,
decoding the block content and re-encoding it with no mutation reproduces
the matched block text byte-for-byte, provided no inner line is exactly
"#" followed by a single space (such a line re-encodes as a bare "#") and
the final inner line does not decode to an empty line (a trailing blank is
dropped by the splitlines-based re-encoding).  The unamended claim, which
includes those shapes, is refuted by the counterexample. -/
theorem block_round_trip (t : List Char) (i j : Nat) (hclean : Clean t)
    (hone : findBlocks (splitNl t) = [(i, j)])
    (hnsp : ∀ l ∈ innerLines (splitNl t) i j, l ≠ "# ".data)
    (hlastline : ∀ llast, (innerLines (splitNl t) i j).getLast? = some llast →
      stripLine llast ≠ []) :
    format_metadata (parse_metadata (contentGroup (splitNl t) i j))
      = matchedText (splitNl t) i j := by
  have hmem : (i, j) ∈ findBlocks (splitNl t) := by rw [hone]; simp
  obtain ⟨idx, htm, hj⟩ :=
    findFrom_mem (splitNl t).length 0 i j (by omega) hmem
  have hcontent := mem_innerLines_content htm hj
  have hnonl : ∀ l ∈ innerLines (splitNl t) i j, '\n' ∉ l := fun l hl =>
    noNl_of_mem_splitNl (mem_innerLines_subset hl)
  obtain ⟨hdecomp, hinlen⟩ := innerLines_decomp htm hj
  have hge : 1 ≤ idx := (tryMatchAt_some htm).2.2
  have hinne : innerLines (splitNl t) i j ≠ [] := by
    intro he
    rw [he] at hinlen
    simp at hinlen
    omega
  have hxsnonl : ∀ l ∈ (innerLines (splitNl t) i j).map stripLine, '\n' ∉ l := by
    intro l hl
    obtain ⟨a, ha, rfl⟩ := List.mem_map.mp hl
    exact fun hc => hnonl a ha (mem_stripLine hc)
  have hxsne : (innerLines (splitNl t) i j).map stripLine ≠ [] := by
    simpa using hinne
  have hxslast : ((innerLines (splitNl t) i j).map stripLine).getLast? ≠ some [] := by
    rw [List.getLast?_map]
    intro hcon
    rcases hgl : (innerLines (splitNl t) i j).getLast? with _ | llast
    · rw [hgl] at hcon; cases hcon
    · rw [hgl] at hcon
      simp only [Option.map] at hcon
      exact hlastline llast hgl (by injection hcon)
  have hmapback : (((innerLines (splitNl t) i j).map stripLine).map frameLine)
      = innerLines (splitNl t) i j := by
    rw [List.map_map]
    have hcongr : ∀ l ∈ innerLines (splitNl t) i j, (frameLine ∘ stripLine) l = id l :=
      fun l hl => frameLine_stripLine (hcontent l hl) (hnsp l hl)
    rw [List.map_congr_left hcongr, List.map_id]
  rw [parse_metadata, contentGroup, pySplitlines_flattenNl hnonl]
  rw [format_metadata, pySplitlines_joinNl hxsnonl hxsne hxslast, hmapback]
  rw [matchedText, hdecomp]
  rw [joinNl_cons (by simp) startMarker,
    joinNl_append (by simp) (innerLines (splitNl t) i j)]
  rw [flattenNl_eq_joinNl hinne, joinNl_single]
  rw [show "# /// script\n".data = startMarker ++ ['\n'] from by decide]
  rw [show "\n# ///".data = '\n' :: endMarker from by decide]
  simp

theorem block_round_trip_cex :
    findBlocks (splitNl "# /// script\n# x\n# \n# ///".data) = [(0, 3)] ∧
      format_metadata (parse_metadata (contentGroup (splitNl "# /// script\n# x\n# \n# ///".data) 0 3))
        ≠ matchedText (splitNl "# /// script\n# x\n# \n# ///".data) 0 3 := by
  constructor
  · decide
  · decide

theorem block_round_trip_witness :
    format_metadata (parse_metadata (contentGroup (splitNl "# /// script\n#\n# x\n# ///\nrest\n".data) 0 3))
      = matchedText (splitNl "# /// script\n#\n# x\n# ///\nrest\n".data) 0 3 :=
  block_round_trip "# /// script\n#\n# x\n# ///\nrest\n".data 0 3
    (by decide) (by decide) (by decide) (by decide)

theorem setIn_spec (ts : List Char) (post : List (List Char)) :
    (∃ A old B, post = A ++ old :: B ∧ isExcludeKv old = true ∧
      setIn ts post = A ++ mkKv ts :: B) ∨
    (∃ A B, post = A ++ B ∧ setIn ts post = A ++ mkKv ts :: B) := by
  induction post with
  | nil => exact Or.inr ⟨[], [], rfl, rfl⟩
  | cons l rest ih =>
    by_cases hkv : isExcludeKv l = true
    · exact Or.inl ⟨[], l, rest, rfl, hkv, by rw [setIn, if_pos hkv]; rfl⟩
    · by_cases hh : isHeaderLine l = true
      · refine Or.inr ⟨[], l :: rest, rfl, ?_⟩
        rw [setIn, if_neg hkv, if_pos hh]
        rfl
      · rcases ih with ⟨A, old, B, hdec, hold, hset⟩ | ⟨A, B, hdec, hset⟩
        · refine Or.inl ⟨l :: A, old, B, by rw [hdec]; rfl, hold, ?_⟩
          rw [setIn, if_neg hkv, if_neg hh, hset]
          rfl
        · refine Or.inr ⟨l :: A, B, by rw [hdec]; rfl, ?_⟩
          rw [setIn, if_neg hkv, if_neg hh, hset]
          rfl

theorem goAfterToolUv_spec (ts : List Char) (doc : List (List Char))
    (h : doc.contains toolUvHeader = true) :
    (∃ A old B, doc = A ++ old :: B ∧ isExcludeKv old = true ∧
      goAfterToolUv ts doc = A ++ mkKv ts :: B) ∨
    (∃ A B, doc = A ++ B ∧ goAfterToolUv ts doc = A ++ mkKv ts :: B) := by
  induction doc with
  | nil => simp [List.contains] at h
  | cons l rest ih =>
    by_cases hl : l = toolUvHeader
    · rcases setIn_spec ts rest with ⟨A, old, B, hdec, hold, hset⟩ | ⟨A, B, hdec, hset⟩
      · refine Or.inl ⟨l :: A, old, B, by rw [hdec]; rfl, hold, ?_⟩
        rw [goAfterToolUv, if_pos hl, hset]
        rfl
      · refine Or.inr ⟨l :: A, B, by rw [hdec]; rfl, ?_⟩
        rw [goAfterToolUv, if_pos hl, hset]
        rfl
    · have hrest : rest.contains toolUvHeader = true := by
        rw [List.contains_cons] at h
        rcases Bool.or_eq_true_iff.mp h with hc | hc
        · have hle : toolUvHeader = l := by simpa using hc
          exact absurd hle.symm hl
        · exact hc
      rcases ih hrest with ⟨A, old, B, hdec, hold, hset⟩ | ⟨A, B, hdec, hset⟩
      · refine Or.inl ⟨l :: A, old, B, by rw [hdec]; rfl, hold, ?_⟩
        rw [goAfterToolUv, if_neg hl, hset]
        rfl
      · refine Or.inr ⟨l :: A, B, by rw [hdec]; rfl, ?_⟩
        rw [goAfterToolUv, if_neg hl, hset]
        rfl

theorem setExcludeNewer_spec (ts : List Char) (doc : List (List Char)) :
    (∃ A old B, doc = A ++ old :: B ∧ isExcludeKv old = true ∧
      setExcludeNewer doc ts = A ++ mkKv ts :: B) ∨
    (∃ A B ins, doc = A ++ B ∧ setExcludeNewer doc ts = A ++ ins ++ B ∧
      (ins = [mkKv ts] ∨ ins = [toolUvHeader, mkKv ts] ∨
        ins = [toolHeader, toolUvHeader, mkKv ts])) := by
  rw [setExcludeNewer]
  by_cases hc : doc.contains toolUvHeader = true
  · rw [if_pos hc]
    rcases goAfterToolUv_spec ts doc hc with ⟨A, old, B, hdec, hold, hset⟩ | ⟨A, B, hdec, hset⟩
    · exact Or.inl ⟨A, old, B, hdec, hold, hset⟩
    · exact Or.inr ⟨A, B, [mkKv ts], hdec, by rw [hset]; simp, Or.inl rfl⟩
  · rw [if_neg hc]
    by_cases ht : doc.contains toolHeader = true
    · rw [if_pos ht]
      exact Or.inr ⟨doc, [], [toolUvHeader, mkKv ts], by simp, by simp, Or.inr (Or.inl rfl)⟩
    · rw [if_neg ht]
      exact Or.inr ⟨doc, [], [toolHeader, toolUvHeader, mkKv ts], by simp, by simp,
        Or.inr (Or.inr rfl)⟩

/-- C6: when the locator finds exactly one block, the update replaces
exactly the matched character span — the output is the original text up to
match.start(), the re-encoded block, and the original text from
match.end() on — and inside the decoded document the mutation either
replaces an existing exclude-newer entry in place or inserts the entry
(together with the missing [tool] / [tool.uv] headers, if absent), leaving
every other line and their relative order untouched. -/
theorem stamp_frame_condition (t ts : List Char) (i j : Nat) (doc : List (List Char))
    (hone : findBlocks (splitNl t) = [(i, j)])
    (hdoc : toml_parse (parse_metadata (contentGroup (splitNl t) i j)) = some doc) :
    update_exclude_newer ts t
        = .ok (t.take (matchStart (splitNl t) i)
            ++ format_metadata (toml_dumps (setExcludeNewer doc ts))
            ++ t.drop (matchEnd (splitNl t) j)) ∧
      ((∃ A old B, doc = A ++ old :: B ∧ isExcludeKv old = true ∧
          setExcludeNewer doc ts = A ++ mkKv ts :: B) ∨
        (∃ A B ins, doc = A ++ B ∧ setExcludeNewer doc ts = A ++ ins ++ B ∧
          (ins = [mkKv ts] ∨ ins = [toolUvHeader, mkKv ts] ∨
            ins = [toolHeader, toolUvHeader, mkKv ts]))) := by
  constructor
  · have hex : extract_metadata_block t = .ok (some (i, j)) := by
      rw [extract_metadata_block, hone]
    unfold update_exclude_newer
    rw [hex]
    dsimp only
    rw [hdoc]
  · exact setExcludeNewer_spec ts doc

theorem stamp_frame_condition_witness :
    update_exclude_newer "TS".data "# /// script\n# dependencies = []\n# ///\nx\n".data
        = .ok (("# /// script\n# dependencies = []\n# ///\nx\n".data).take
              (matchStart (splitNl "# /// script\n# dependencies = []\n# ///\nx\n".data) 0)
            ++ format_metadata (toml_dumps (setExcludeNewer ["dependencies = []".data] "TS".data))
            ++ ("# /// script\n# dependencies = []\n# ///\nx\n".data).drop
              (matchEnd (splitNl "# /// script\n# dependencies = []\n# ///\nx\n".data) 2)) ∧
      ((∃ A old B, ["dependencies = []".data] = A ++ old :: B ∧ isExcludeKv old = true ∧
          setExcludeNewer ["dependencies = []".data] "TS".data = A ++ mkKv "TS".data :: B) ∨
        (∃ A B ins, ["dependencies = []".data] = A ++ B ∧
          setExcludeNewer ["dependencies = []".data] "TS".data = A ++ ins ++ B ∧
          (ins = [mkKv "TS".data] ∨ ins = [toolUvHeader, mkKv "TS".data] ∨
            ins = [toolHeader, toolUvHeader, mkKv "TS".data]))) :=
  stamp_frame_condition "# /// script\n# dependencies = []\n# ///\nx\n".data "TS".data
    0 2 ["dependencies = []".data] (by decide) (by decide)

theorem flattenNl_length (ls : List (List Char)) :
    (flattenNl ls).length = ((ls.map (fun l => l.length + 1)).sum) := by
  induction ls with
  | nil => rfl
  | cons l ls' ih =>
    simp only [flattenNl_cons, List.length_append, List.length_cons, ih,
      List.map_cons, List.sum_cons]
    omega

theorem joinNl_cons_tail (x : List Char) (S : List (List Char)) :
    joinNl (x :: S) = x ++ nlTail S := by
  cases S with
  | nil => simp [joinNl_single, nlTail]
  | cons s ss => rw [joinNl_cons (by simp) x, nlTail]

theorem joinNl_three {M : List (List Char)} (hM : M ≠ []) (P S : List (List Char)) :
    joinNl (P ++ M ++ S) = flattenNl P ++ joinNl M ++ nlTail S := by
  rw [List.append_assoc, joinNl_append (by simp [hM]) P]
  have h : joinNl (M ++ S) = joinNl M ++ nlTail S := by
    cases S with
    | nil => simp [nlTail]
    | cons s ss =>
      rw [joinNl_append (show (s :: ss) ≠ [] from by simp) M,
        flattenNl_eq_joinNl hM, nlTail]
      simp
  rw [h, ← List.append_assoc]

theorem matchStart_left (P X : List (List Char)) :
    matchStart (P ++ X) P.length = (flattenNl P).length := by
  rw [matchStart, List.take_left, flattenNl_length]

theorem take_matchStart {M : List (List Char)} (hM : M ≠ []) (P S : List (List Char)) :
    (joinNl (P ++ M ++ S)).take (matchStart (P ++ M ++ S) P.length) = flattenNl P := by
  rw [joinNl_three hM, show (P ++ M ++ S) = P ++ (M ++ S) from by simp, matchStart_left]
  rw [List.append_assoc]
  exact List.take_left _ _

theorem drop_matchEnd {M : List (List Char)} (hM : M ≠ []) (P S : List (List Char)) :
    (joinNl (P ++ M ++ S)).drop (matchEnd (P ++ M ++ S) (P.length + M.length - 1)) = nlTail S := by
  obtain ⟨M0, mlast, rfl⟩ : ∃ M0 mlast, M = M0 ++ [mlast] := by
    refine ⟨M.dropLast, M.getLast hM, ?_⟩
    exact (List.dropLast_append_getLast hM).symm
  have hj : P.length + (M0 ++ [mlast]).length - 1 = (P ++ M0).length := by
    simp
  have hre : P ++ (M0 ++ [mlast]) ++ S = (P ++ M0) ++ ([mlast] ++ S) := by simp
  rw [hj, hre, matchEnd, matchStart_left]
  have hgd : ((P ++ M0) ++ ([mlast] ++ S)).getD (P ++ M0).length [] = mlast := by
    rw [List.getD_append_right _ _ _ _ (Nat.le_refl _)]
    simp
  rw [hgd, ← List.append_assoc]
  rw [joinNl_three (show [mlast] ≠ [] from by simp) (P ++ M0) S, joinNl_single]
  rw [← List.length_append]
  exact List.drop_left _ _

theorem frameLine_content (l : List Char) : isContentLine (frameLine l) = true := by
  rw [frameLine]
  by_cases h : l = []
  · rw [if_pos h]; decide
  · rw [if_neg h, isContentLine]
    simp

theorem stripLine_frameLine (l : List Char) : stripLine (frameLine l) = l := by
  rw [frameLine]
  by_cases h : l = []
  · rw [if_pos h, h]; decide
  · rw [if_neg h]
    simp [stripLine, removePre, List.isPrefixOf]

theorem noNl_frameLine {l : List Char} (h : '\n' ∉ l) : '\n' ∉ frameLine l := by
  rw [frameLine]
  by_cases he : l = []
  · rw [if_pos he]; decide
  · rw [if_neg he]
    intro hm
    rcases List.mem_cons.mp hm with hc | hm'
    · cases hc
    · rcases List.mem_cons.mp hm' with hc | hm''
      · cases hc
      · exact h hm''

theorem mkKv_eq (ts : List Char) :
    mkKv ts = "exclude-newer".data ++ " = ".data ++ ('"' :: (ts ++ ['"'])) := by
  rw [mkKv, show "exclude-newer = \"".data
    = "exclude-newer".data ++ " = ".data ++ ['"'] from by decide]
  simp

theorem mkKv_ne_nil (ts : List Char) : mkKv ts ≠ [] := by
  rw [mkKv_eq]
  simp

theorem noNl_mkKv {ts : List Char} (h : '\n' ∉ ts) : '\n' ∉ mkKv ts := by
  rw [mkKv_eq]
  intro hm
  rcases List.mem_append.mp hm with hm1 | hm2
  · rcases List.mem_append.mp hm1 with hm3 | hm4
    · exact absurd hm3 (by decide)
    · exact absurd hm4 (by decide)
  · rcases List.mem_cons.mp hm2 with hc | hm5
    · cases hc
    · rcases List.mem_append.mp hm5 with hm6 | hm7
      · exact h hm6
      · exact absurd hm7 (by decide)

theorem isExcludeKv_mkKv (ts : List Char) : isExcludeKv (mkKv ts) = true := by
  have hpre : "exclude-newer = ".data <+: mkKv ts := by
    refine ⟨'"' :: (ts ++ ['"']), ?_⟩
    rw [mkKv_eq, show "exclude-newer = ".data
      = "exclude-newer".data ++ " = ".data from by decide]
  simpa [isExcludeKv] using hpre

theorem mkKv_valid (ts : List Char) : validTomlLine (mkKv ts) = true := by
  rw [validTomlLine, isKvLine]
  have h1 : decide (" = ".data <:+: mkKv ts) = true := by
    rw [decide_eq_true_eq, mkKv_eq]
    exact ⟨"exclude-newer".data, '"' :: (ts ++ ['"']), by simp⟩
  have h2 : (mkKv ts).take 1 = ['e'] := by
    rw [mkKv_eq]
    rfl
  rw [h1, h2]
  simp

theorem framedKv_eq (ts : List Char) : frameLine (mkKv ts) = framedKv ts := by
  rw [frameLine, if_neg (mkKv_ne_nil ts), framedKv]

theorem noNl_framedKv {ts : List Char} (h : '\n' ∉ ts) : '\n' ∉ framedKv ts := by
  rw [framedKv]
  intro hm
  rcases List.mem_cons.mp hm with hc | hm'
  · cases hc
  · rcases List.mem_cons.mp hm' with hc | hm''
    · cases hc
    · exact noNl_mkKv h hm''

theorem format_metadata_blockLines {doc : List (List Char)} (hne : doc ≠ [])
    (hnl : ∀ l ∈ doc, '\n' ∉ l) (hlast : doc.getLast? ≠ some []) :
    format_metadata (toml_dumps doc) = joinNl (blockLines doc) := by
  have hrhs : joinNl (blockLines doc)
      = startMarker ++ '\n' :: (joinNl (doc.map frameLine) ++ '\n' :: endMarker) := by
    rw [blockLines,
      joinNl_append (show [endMarker] ≠ [] from by simp) (startMarker :: doc.map frameLine)]
    rw [flattenNl_cons,
      flattenNl_eq_joinNl (show doc.map frameLine ≠ [] from by simpa using hne),
      joinNl_single]
    simp
  rw [format_metadata, toml_dumps, pySplitlines_joinNl hnl hne hlast, hrhs]
  rw [show "# /// script\n".data = startMarker ++ ['\n'] from by decide]
  rw [show "\n# ///".data = '\n' :: endMarker from by decide]
  simp

theorem toml_parse_joinNl {doc : List (List Char)} (hne : doc ≠ [])
    (hnl : ∀ l ∈ doc, '\n' ∉ l) (hvalid : doc.all validTomlLine = true) :
    toml_parse (joinNl doc) = some doc := by
  rw [toml_parse, splitNl_joinNl hnl hne, if_pos hvalid]

theorem toml_parse_some {s : List Char} {doc : List (List Char)}
    (h : toml_parse s = some doc) :
    doc = splitNl s ∧ doc.all validTomlLine = true := by
  rw [toml_parse] at h
  by_cases hv : (splitNl s).all validTomlLine = true
  · rw [if_pos hv] at h
    injection h with h
    subst h
    exact ⟨rfl, hv⟩
  · rw [if_neg hv] at h
    cases h

theorem firstNl_decomp {t : List Char} (h : '\n' ∈ t) :
    ∃ l0 rest, t = l0 ++ '\n' :: rest ∧ '\n' ∉ l0 := by
  induction t with
  | nil => cases h
  | cons c cs ih =>
    by_cases hc : c = '\n'
    · subst hc
      exact ⟨[], cs, rfl, by simp⟩
    · have hm : '\n' ∈ cs := by
        rcases List.mem_cons.mp h with he | hm
        · exact absurd he.symm hc
        · exact hm
      obtain ⟨l0, rest, hdec, hl0⟩ := ih hm
      refine ⟨c :: l0, rest, by rw [hdec]; rfl, ?_⟩
      intro hmm
      rcases List.mem_cons.mp hmm with he | hm2
      · exact hc he.symm
      · exact hl0 hm2

theorem setIn_decomp (post : List (List Char)) :
    ∃ W T, (∀ l ∈ W, isExcludeKv l = false ∧ isHeaderLine l = false) ∧
      ∀ ts, setIn ts post = W ++ mkKv ts :: T := by
  induction post with
  | nil => exact ⟨[], [], by simp, fun ts => rfl⟩
  | cons l rest ih =>
    by_cases hkv : isExcludeKv l = true
    · exact ⟨[], rest, by simp, fun ts => by rw [setIn, if_pos hkv]; rfl⟩
    · by_cases hh : isHeaderLine l = true
      · refine ⟨[], l :: rest, by simp, fun ts => ?_⟩
        rw [setIn, if_neg hkv, if_pos hh]
        rfl
      · obtain ⟨W, T, hW, hset⟩ := ih
        refine ⟨l :: W, T, ?_, fun ts => ?_⟩
        · intro x hx
          rcases List.mem_cons.mp hx with rfl | hx'
          · exact ⟨Bool.not_eq_true _ ▸ hkv, Bool.not_eq_true _ ▸ hh⟩
          · exact hW x hx'
        · rw [setIn, if_neg hkv, if_neg hh, hset ts]
          rfl

theorem goAfter_decomp (doc : List (List Char))
    (h : doc.contains toolUvHeader = true) :
    ∃ Pre W T, (∀ l ∈ Pre, l ≠ toolUvHeader) ∧
      (∀ l ∈ W, isExcludeKv l = false ∧ isHeaderLine l = false) ∧
      ∀ ts, goAfterToolUv ts doc = Pre ++ toolUvHeader :: (W ++ mkKv ts :: T) := by
  induction doc with
  | nil => simp [List.contains] at h
  | cons l rest ih =>
    by_cases hl : l = toolUvHeader
    · obtain ⟨W, T, hW, hset⟩ := setIn_decomp rest
      refine ⟨[], W, T, by simp, hW, fun ts => ?_⟩
      rw [goAfterToolUv, if_pos hl, hset ts, hl]
      rfl
    · have hrest : rest.contains toolUvHeader = true := by
        rw [List.contains_cons] at h
        rcases Bool.or_eq_true_iff.mp h with hc | hc
        · have hle : toolUvHeader = l := by simpa using hc
          exact absurd hle.symm hl
        · exact hc
      obtain ⟨Pre, W, T, hPre, hW, hset⟩ := ih hrest
      refine ⟨l :: Pre, W, T, ?_, hW, fun ts => ?_⟩
      · intro x hx
        rcases List.mem_cons.mp hx with rfl | hx'
        · exact hl
        · exact hPre x hx'
      · rw [goAfterToolUv, if_neg hl, hset ts]
        rfl

theorem toolUvHeader_mem_decomp {Pre W T : List (List Char)} (ts : List Char) :
    (Pre ++ toolUvHeader :: (W ++ mkKv ts :: T)).contains toolUvHeader = true := by
  have : toolUvHeader ∈ Pre ++ toolUvHeader :: (W ++ mkKv ts :: T) := by
    simp
  simpa using this

theorem setExcludeNewer_decomp (doc : List (List Char)) :
    ∃ Pre W T, (∀ l ∈ Pre, l ≠ toolUvHeader) ∧
      (∀ l ∈ W, isExcludeKv l = false ∧ isHeaderLine l = false) ∧
      ∀ ts, setExcludeNewer doc ts = Pre ++ toolUvHeader :: (W ++ mkKv ts :: T) := by
  by_cases hc : doc.contains toolUvHeader = true
  · obtain ⟨Pre, W, T, hPre, hW, hset⟩ := goAfter_decomp doc hc
    exact ⟨Pre, W, T, hPre, hW, fun ts => by rw [setExcludeNewer, if_pos hc]; exact hset ts⟩
  · by_cases ht : doc.contains toolHeader = true
    · refine ⟨doc, [], [], ?_, by simp, fun ts => ?_⟩
      · intro x hx he
        apply hc
        have hmem : toolUvHeader ∈ doc := he ▸ hx
        simpa using hmem
      · rw [setExcludeNewer, if_neg hc, if_pos ht]
        simp
    · refine ⟨doc ++ [toolHeader], [], [], ?_, by simp, fun ts => ?_⟩
      · intro x hx he
        rcases List.mem_append.mp hx with hx' | hx'
        · apply hc
          have hmem : toolUvHeader ∈ doc := he ▸ hx'
          simpa using hmem
        · have : x = toolHeader := by simpa using hx'
          rw [this] at he
          exact absurd he (by decide)
      · rw [setExcludeNewer, if_neg hc, if_neg ht]
        simp

theorem setIn_on_decomp {W : List (List Char)} (T : List (List Char))
    (hW : ∀ l ∈ W, isExcludeKv l = false ∧ isHeaderLine l = false)
    (ts0 ts : List Char) :
    setIn ts (W ++ mkKv ts0 :: T) = W ++ mkKv ts :: T := by
  induction W with
  | nil =>
    rw [List.nil_append, setIn, if_pos (isExcludeKv_mkKv ts0)]
    rfl
  | cons w W' ih =>
    obtain ⟨hkv, hh⟩ := hW w (by simp)
    rw [List.cons_append, setIn, if_neg (by rw [hkv]; exact Bool.false_ne_true),
      if_neg (by rw [hh]; exact Bool.false_ne_true)]
    rw [ih (fun l hl => hW l (List.mem_cons_of_mem w hl))]
    rfl

theorem goAfter_on_decomp {Pre : List (List Char)} (rest : List (List Char))
    (hPre : ∀ l ∈ Pre, l ≠ toolUvHeader) (ts : List Char) :
    goAfterToolUv ts (Pre ++ toolUvHeader :: rest)
      = Pre ++ toolUvHeader :: setIn ts rest := by
  induction Pre with
  | nil =>
    rw [List.nil_append, goAfterToolUv, if_pos rfl]
    rfl
  | cons p Pre' ih =>
    rw [List.cons_append, goAfterToolUv, if_neg (hPre p (by simp))]
    rw [ih (fun l hl => hPre l (List.mem_cons_of_mem p hl))]
    rfl

theorem set_on_decomp {Pre W T : List (List Char)}
    (hPre : ∀ l ∈ Pre, l ≠ toolUvHeader)
    (hW : ∀ l ∈ W, isExcludeKv l = false ∧ isHeaderLine l = false)
    (ts0 ts : List Char) :
    setExcludeNewer (Pre ++ toolUvHeader :: (W ++ mkKv ts0 :: T)) ts
      = Pre ++ toolUvHeader :: (W ++ mkKv ts :: T) := by
  rw [setExcludeNewer, if_pos (toolUvHeader_mem_decomp ts0)]
  rw [goAfter_on_decomp _ hPre, setIn_on_decomp T hW ts0 ts]

theorem set_mem {doc : List (List Char)} {ts l : List Char}
    (h : l ∈ setExcludeNewer doc ts) :
    l ∈ doc ∨ l = mkKv ts ∨ l = toolHeader ∨ l = toolUvHeader := by
  rcases setExcludeNewer_spec ts doc with ⟨A, old, B, hdec, hold, hset⟩ |
    ⟨A, B, ins, hdec, hset, hins⟩
  · rw [hset] at h
    rcases List.mem_append.mp h with hA | hB
    · exact Or.inl (hdec ▸ List.mem_append.mpr (Or.inl hA))
    · rcases List.mem_cons.mp hB with rfl | hB'
      · exact Or.inr (Or.inl rfl)
      · exact Or.inl (hdec ▸ List.mem_append.mpr (Or.inr (List.mem_cons_of_mem old hB')))
  · rw [hset] at h
    rcases List.mem_append.mp h with hAi | hB
    · rcases List.mem_append.mp hAi with hA | hi
      · exact Or.inl (hdec ▸ List.mem_append.mpr (Or.inl hA))
      · rcases hins with rfl | rfl | rfl
        · have : l = mkKv ts := by simpa using hi
          exact Or.inr (Or.inl this)
        · rcases (by simpa using hi : l = toolUvHeader ∨ l = mkKv ts) with rfl | rfl
          · exact Or.inr (Or.inr (Or.inr rfl))
          · exact Or.inr (Or.inl rfl)
        · rcases (by simpa using hi : l = toolHeader ∨ l = toolUvHeader ∨ l = mkKv ts)
            with rfl | rfl | rfl
          · exact Or.inr (Or.inr (Or.inl rfl))
          · exact Or.inr (Or.inr (Or.inr rfl))
          · exact Or.inr (Or.inl rfl)
    · exact Or.inl (hdec ▸ List.mem_append.mpr (Or.inr hB))

theorem set_valid {doc : List (List Char)} (ts : List Char)
    (h : doc.all validTomlLine = true) :
    (setExcludeNewer doc ts).all validTomlLine = true := by
  rw [List.all_eq_true] at h ⊢
  intro l hl
  rcases set_mem hl with hd | rfl | rfl | rfl
  · exact h l hd
  · exact mkKv_valid ts
  · decide
  · decide

theorem set_noNl {doc : List (List Char)} {ts : List Char}
    (hts : '\n' ∉ ts) (h : ∀ l ∈ doc, '\n' ∉ l) :
    ∀ l ∈ setExcludeNewer doc ts, '\n' ∉ l := by
  intro l hl
  rcases set_mem hl with hd | rfl | rfl | rfl
  · exact h l hd
  · exact noNl_mkKv hts
  · decide
  · decide

theorem set_getLast {doc : List (List Char)} (ts : List Char)
    (h : doc.getLast? ≠ some []) :
    (setExcludeNewer doc ts).getLast? ≠ some [] := by
  rcases setExcludeNewer_spec ts doc with ⟨A, old, B, hdec, hold, hset⟩ |
    ⟨A, B, ins, hdec, hset, hins⟩
  · rw [hset]
    cases B with
    | nil =>
      rw [List.getLast?_append_of_ne_nil A (by simp)]
      simp [mkKv_ne_nil ts]
    | cons b B' =>
      rw [List.getLast?_append_of_ne_nil A (by simp)]
      rw [hdec, List.getLast?_append_of_ne_nil A (by simp)] at h
      rw [List.getLast?_cons_cons]
      rw [List.getLast?_cons_cons] at h
      exact h
  · rw [hset]
    cases B with
    | nil =>
      have hins_ne : ins ≠ [] := by
        rcases hins with rfl | rfl | rfl <;> simp
      rw [List.append_nil, List.getLast?_append_of_ne_nil A hins_ne]
      rcases hins with rfl | rfl | rfl
      · simp [mkKv_ne_nil ts]
      · simp [mkKv_ne_nil ts]
      · simp [mkKv_ne_nil ts]
    | cons b B' =>
      rw [List.append_assoc, List.getLast?_append_of_ne_nil A (by simp)]
      rw [List.getLast?_append_of_ne_nil ins (by simp)]
      rw [hdec, List.getLast?_append_of_ne_nil A (by simp)] at h
      exact h

theorem tryMatchAt_transfer {P mid mid' S : List (List Char)} {l : Nat}
    (hl : l < P.length)
    (hmid : ∀ x ∈ mid, isContentLine x = true)
    (hmid' : ∀ x ∈ mid', isContentLine x = true)
    (hS : lastEndIdx S = none)
    (hold : tryMatchAt (P ++ ((startMarker :: mid) ++ [endMarker]) ++ S) l = none) :
    tryMatchAt (P ++ ((startMarker :: mid') ++ [endMarker]) ++ S) l = none := by
  have hgd : ∀ X : List (List Char), (P ++ X).getD l [] = P.getD l [] := fun X =>
    List.getD_append P X [] l hl
  have hdrop : ∀ X : List (List Char), (P ++ X).drop (l + 1) = P.drop (l + 1) ++ X :=
    fun X => List.drop_append_of_le_length (by omega)
  by_cases hm : P.getD l [] = startMarker
  · by_cases hall : ∀ x ∈ P.drop (l + 1), isContentLine x = true
    · exfalso
      have hrun : lastEndIdx ((P.drop (l + 1)) ++ ((startMarker :: mid) ++ [endMarker]) ++ S)
          = some ((P.drop (l + 1) ++ startMarker :: mid).length) := by
        have hre : (P.drop (l + 1)) ++ ((startMarker :: mid) ++ [endMarker]) ++ S
            = (P.drop (l + 1) ++ startMarker :: mid) ++ endMarker :: S := by
          simp
        rw [hre]
        apply lastEndIdx_run _ hS
        intro x hx
        rcases List.mem_append.mp hx with hx1 | hx2
        · exact hall x hx1
        · rcases List.mem_cons.mp hx2 with rfl | hx3
          · exact startMarker_content
          · exact hmid x hx3
      rw [List.append_assoc] at hold
      rw [tryMatchAt_marker (by rw [hgd]; exact hm), hdrop, ← List.append_assoc] at hold
      rw [hrun] at hold
      dsimp only at hold
      rw [if_pos (by simp only [List.length_append, List.length_cons]; omega)] at hold
      cases hold
    · push_neg at hall
      obtain ⟨x, hx, hxc⟩ := hall
      have hbad : ∃ y ∈ P.drop (l + 1), isContentLine y = false :=
        ⟨x, hx, Bool.not_eq_true _ ▸ hxc⟩
      rw [List.append_assoc] at hold
      rw [List.append_assoc]
      rw [tryMatchAt_marker (by rw [hgd]; exact hm)] at hold ⊢
      rw [hdrop, lastEndIdx_append_bad hbad] at hold ⊢
      exact hold
  · rw [List.append_assoc]
    exact tryMatchAt_none_of_ne (by rw [hgd]; exact hm)

theorem blockLines_getD_zero (doc : List (List Char)) (S : List (List Char)) :
    (blockLines doc ++ S).getD 0 [] = startMarker := by
  rw [blockLines]
  rfl

theorem blockLines_length (doc : List (List Char)) :
    (blockLines doc).length = doc.length + 2 := by
  rw [blockLines]
  simp

theorem findBlocks_shape {P S doc : List (List Char)}
    (hne : doc ≠ [])
    (hP : ∀ l, l < P.length → tryMatchAt (P ++ blockLines doc ++ S) l = none)
    (hSrun : lastEndIdx S = none)
    (hSnone : ∀ k, tryMatchAt S k = none) :
    findBlocks (P ++ blockLines doc ++ S)
      = [(P.length, P.length + 1 + doc.length)] := by
  have hassoc : P ++ blockLines doc ++ S = P ++ (blockLines doc ++ S) := by simp
  have hgd : (P ++ blockLines doc ++ S).getD P.length [] = startMarker := by
    rw [hassoc, List.getD_append_right _ _ _ _ (Nat.le_refl _), Nat.sub_self]
    exact blockLines_getD_zero doc S
  have hdrop : (P ++ blockLines doc ++ S).drop (P.length + 1)
      = doc.map frameLine ++ endMarker :: S := by
    rw [hassoc, List.drop_append]
    rw [show blockLines doc ++ S
      = startMarker :: (doc.map frameLine ++ endMarker :: S) from by rw [blockLines]; simp]
    rfl
  have hrun : lastEndIdx (doc.map frameLine ++ endMarker :: S) = some doc.length := by
    rw [lastEndIdx_run (fun l hl => by
      obtain ⟨a, _, rfl⟩ := List.mem_map.mp hl
      exact frameLine_content a) hSrun]
    simp
  have h0 : tryMatchAt (P ++ blockLines doc ++ S) P.length = some doc.length := by
    rw [tryMatchAt_marker hgd, hdrop, hrun]
    dsimp only
    rw [if_pos (by
      have := List.length_pos.mpr hne
      omega)]
  have htail : ∀ l, P.length + 2 + doc.length ≤ l →
      tryMatchAt (P ++ blockLines doc ++ S) l = none := by
    intro l hl
    have hlen : (P ++ blockLines doc).length = P.length + 2 + doc.length := by
      rw [List.length_append, blockLines_length]
      omega
    have hre : P ++ blockLines doc ++ S = (P ++ blockLines doc) ++ S := by simp
    have hk : l = (P ++ blockLines doc).length + (l - (P.length + 2 + doc.length)) := by
      omega
    rw [hre, hk, tryMatchAt_shift]
    exact hSnone _
  rw [findBlocks, findFrom_skip P.length 0 (fun l hl1 hl2 => hP l (by omega))]
  rw [show 0 + P.length = P.length from by omega]
  rw [findFrom_step_some h0]
  rw [findFrom_all_none (fun l hl => htail l (by omega))]

theorem innerLines_shape {P S doc : List (List Char)} :
    innerLines (P ++ blockLines doc ++ S) P.length (P.length + 1 + doc.length)
      = doc.map frameLine := by
  rw [innerLines]
  have hdrop : (P ++ blockLines doc ++ S).drop (P.length + 1)
      = doc.map frameLine ++ endMarker :: S := by
    rw [show P ++ blockLines doc ++ S = P ++ (blockLines doc ++ S) from by simp,
      List.drop_append]
    rw [show blockLines doc ++ S
      = startMarker :: (doc.map frameLine ++ endMarker :: S) from by rw [blockLines]; simp]
    rfl
  rw [hdrop, show P.length + 1 + doc.length - (P.length + 1) = doc.length from by omega]
  rw [show doc.length = (doc.map frameLine).length from by simp]
  exact List.take_left _ _

theorem decode_blockLines {doc : List (List Char)} (hnl : ∀ l ∈ doc, '\n' ∉ l) :
    parse_metadata (flattenNl (doc.map frameLine)) = joinNl doc := by
  rw [parse_metadata, pySplitlines_flattenNl (fun l hl => by
    obtain ⟨a, ha, rfl⟩ := List.mem_map.mp hl
    exact noNl_frameLine (hnl a ha))]
  rw [List.map_map]
  congr 1
  exact (List.map_congr_left (fun a _ => stripLine_frameLine a)).trans (List.map_id doc)

theorem dLast {Pre W T : List (List Char)} (ts : List Char)
    (hT : T.getLast? ≠ some []) :
    (Pre ++ toolUvHeader :: (W ++ mkKv ts :: T)).getLast? ≠ some [] := by
  rw [List.getLast?_append_of_ne_nil Pre (by simp)]
  rw [show toolUvHeader :: (W ++ mkKv ts :: T) = [toolUvHeader] ++ (W ++ mkKv ts :: T)
    from rfl]
  rw [List.getLast?_append_of_ne_nil [toolUvHeader] (by simp)]
  rw [List.getLast?_append_of_ne_nil W (by simp)]
  cases T with
  | nil => simp [mkKv_ne_nil ts]
  | cons b T' =>
    rw [List.getLast?_cons_cons]
    exact hT

theorem mem_D {Pre W T : List (List Char)} {ts l : List Char}
    (h : l ∈ Pre ++ toolUvHeader :: (W ++ mkKv ts :: T)) :
    l ∈ Pre ∨ l = toolUvHeader ∨ l ∈ W ∨ l = mkKv ts ∨ l ∈ T := by
  rcases List.mem_append.mp h with h1 | h2
  · exact Or.inl h1
  · rcases List.mem_cons.mp h2 with rfl | h3
    · exact Or.inr (Or.inl rfl)
    · rcases List.mem_append.mp h3 with h4 | h5
      · exact Or.inr (Or.inr (Or.inl h4))
      · rcases List.mem_cons.mp h5 with rfl | h6
        · exact Or.inr (Or.inr (Or.inr (Or.inl rfl)))
        · exact Or.inr (Or.inr (Or.inr (Or.inr h6)))

theorem noNl_parts {P S doc : List (List Char)} (hnlP : ∀ l ∈ P, '\n' ∉ l)
    (hnlS : ∀ l ∈ S, '\n' ∉ l) (hnldoc : ∀ l ∈ doc, '\n' ∉ l) :
    ∀ l ∈ P ++ blockLines doc ++ S, '\n' ∉ l := by
  intro l hl
  rcases List.mem_append.mp hl with h1 | h2
  · rcases List.mem_append.mp h1 with h3 | h4
    · exact hnlP l h3
    · rw [blockLines] at h4
      rcases List.mem_append.mp h4 with h5 | h6
      · rcases List.mem_cons.mp h5 with rfl | h7
        · exact noNl_startMarker
        · obtain ⟨a, ha, rfl⟩ := List.mem_map.mp h7
          exact noNl_frameLine (hnldoc a ha)
      · have : l = endMarker := by simpa using h6
        rw [this]
        exact noNl_endMarker
  · exact hnlS l h2

theorem stamp_regime {P S Pre W T : List (List Char)} {ts0 ts : List Char}
    (hts0 : '\n' ∉ ts0) (hts : '\n' ∉ ts)
    (hPre : ∀ l ∈ Pre, l ≠ toolUvHeader)
    (hW : ∀ l ∈ W, isExcludeKv l = false ∧ isHeaderLine l = false)
    (hv : ∀ l ∈ Pre ++ W ++ T, validTomlLine l = true)
    (hnlP : ∀ l ∈ P, '\n' ∉ l)
    (hnlS : ∀ l ∈ S, '\n' ∉ l)
    (hnlPWT : ∀ l ∈ Pre ++ W ++ T, '\n' ∉ l)
    (hTlast : T.getLast? ≠ some [])
    (hP : ∀ l, l < P.length →
      tryMatchAt (P ++ blockLines (Pre ++ toolUvHeader :: (W ++ mkKv ts0 :: T)) ++ S) l = none)
    (hSrun : lastEndIdx S = none)
    (hSnone : ∀ k, tryMatchAt S k = none) :
    update_exclude_newer ts
        (joinNl (P ++ blockLines (Pre ++ toolUvHeader :: (W ++ mkKv ts0 :: T)) ++ S))
        = .ok (joinNl (P ++ blockLines (Pre ++ toolUvHeader :: (W ++ mkKv ts :: T)) ++ S)) ∧
      (∀ l, l < P.length →
        tryMatchAt (P ++ blockLines (Pre ++ toolUvHeader :: (W ++ mkKv ts :: T)) ++ S) l = none) := by
  have hin : ∀ {l : List Char}, l ∈ Pre ∨ l ∈ W ∨ l ∈ T → l ∈ Pre ++ W ++ T := by
    intro l h
    simp only [List.mem_append]
    tauto
  have hDnl : ∀ (x : List Char), '\n' ∉ x →
      ∀ l ∈ Pre ++ toolUvHeader :: (W ++ mkKv x :: T), '\n' ∉ l := by
    intro x hx l hl
    rcases mem_D hl with h | rfl | h | rfl | h
    · exact hnlPWT l (hin (Or.inl h))
    · decide
    · exact hnlPWT l (hin (Or.inr (Or.inl h)))
    · exact noNl_mkKv hx
    · exact hnlPWT l (hin (Or.inr (Or.inr h)))
  have hDvalid : ∀ (x : List Char),
      (Pre ++ toolUvHeader :: (W ++ mkKv x :: T)).all validTomlLine = true := by
    intro x
    rw [List.all_eq_true]
    intro l hl
    rcases mem_D hl with h | rfl | h | rfl | h
    · exact hv l (hin (Or.inl h))
    · decide
    · exact hv l (hin (Or.inr (Or.inl h)))
    · exact mkKv_valid x
    · exact hv l (hin (Or.inr (Or.inr h)))
  have hDne : ∀ (x : List Char), (Pre ++ toolUvHeader :: (W ++ mkKv x :: T)) ≠ [] := by
    intro x
    simp
  have hbne : ∀ (doc : List (List Char)), blockLines doc ≠ [] := by
    intro doc
    rw [blockLines]
    simp
  have hpne : P ++ blockLines (Pre ++ toolUvHeader :: (W ++ mkKv ts0 :: T)) ++ S ≠ [] := by
    intro he
    have := hbne (Pre ++ toolUvHeader :: (W ++ mkKv ts0 :: T))
    simp only [List.append_eq_nil] at he
    exact this he.1.2
  have hpnl := noNl_parts hnlP hnlS (hDnl ts0 hts0)
  have hsplit : splitNl (joinNl (P ++ blockLines (Pre ++ toolUvHeader :: (W ++ mkKv ts0 :: T)) ++ S))
      = P ++ blockLines (Pre ++ toolUvHeader :: (W ++ mkKv ts0 :: T)) ++ S :=
    splitNl_joinNl hpnl hpne
  have hfb := @findBlocks_shape P S (Pre ++ toolUvHeader :: (W ++ mkKv ts0 :: T))
    (hDne ts0) hP hSrun hSnone
  have hex : extract_metadata_block
      (joinNl (P ++ blockLines (Pre ++ toolUvHeader :: (W ++ mkKv ts0 :: T)) ++ S))
      = .ok (some (P.length,
          P.length + 1 + (Pre ++ toolUvHeader :: (W ++ mkKv ts0 :: T)).length)) := by
    rw [extract_metadata_block, hsplit, hfb]
  have hparse : toml_parse (parse_metadata (contentGroup
      (P ++ blockLines (Pre ++ toolUvHeader :: (W ++ mkKv ts0 :: T)) ++ S)
      P.length (P.length + 1 + (Pre ++ toolUvHeader :: (W ++ mkKv ts0 :: T)).length)))
      = some (Pre ++ toolUvHeader :: (W ++ mkKv ts0 :: T)) := by
    rw [contentGroup, innerLines_shape, decode_blockLines (hDnl ts0 hts0)]
    exact toml_parse_joinNl (hDne ts0) (hDnl ts0 hts0) (hDvalid ts0)
  have hset : setExcludeNewer (Pre ++ toolUvHeader :: (W ++ mkKv ts0 :: T)) ts
      = Pre ++ toolUvHeader :: (W ++ mkKv ts :: T) := set_on_decomp hPre hW ts0 ts
  constructor
  · unfold update_exclude_newer
    rw [hex]
    dsimp only
    rw [hsplit, hparse]
    dsimp only
    rw [hset]
    rw [format_metadata_blockLines (hDne ts) (hDnl ts hts) (dLast ts hTlast)]
    rw [take_matchStart (hbne _) P S]
    rw [show P.length + 1 + (Pre ++ toolUvHeader :: (W ++ mkKv ts0 :: T)).length
        = P.length + (blockLines (Pre ++ toolUvHeader :: (W ++ mkKv ts0 :: T))).length - 1
      from by rw [blockLines_length]; omega]
    rw [drop_matchEnd (hbne _) P S]
    rw [joinNl_three (hbne (Pre ++ toolUvHeader :: (W ++ mkKv ts :: T))) P S]
  · intro l hl
    exact tryMatchAt_transfer hl
      (fun x hx => by
        obtain ⟨a, _, rfl⟩ := List.mem_map.mp hx
        exact frameLine_content a)
      (fun x hx => by
        obtain ⟨a, _, rfl⟩ := List.mem_map.mp hx
        exact frameLine_content a)
      hSrun (hP l hl)

theorem nlTail_ne {S : List (List Char)} (h : S ≠ []) : nlTail S = '\n' :: joinNl S := by
  cases S with
  | nil => exact absurd rfl h
  | cons s ss => rfl

theorem minimalDoc_noNl {ts : List Char} (hts : '\n' ∉ ts) :
    ∀ l ∈ minimalDoc ts, '\n' ∉ l := by
  intro l hl
  rw [minimalDoc] at hl
  rcases List.mem_cons.mp hl with rfl | hl1
  · decide
  · rcases List.mem_cons.mp hl1 with rfl | hl2
    · decide
    · rcases List.mem_cons.mp hl2 with rfl | hl3
      · decide
      · have : l = mkKv ts := by simpa using hl3
        rw [this]
        exact noNl_mkKv hts

theorem minimalDoc_last (ts : List Char) : (minimalDoc ts).getLast? ≠ some [] := by
  rw [minimalDoc, show ["dependencies = []".data, toolHeader, toolUvHeader, mkKv ts]
    = ["dependencies = []".data, toolHeader, toolUvHeader] ++ [mkKv ts] from by simp]
  rw [List.getLast?_concat]
  simp [mkKv_ne_nil ts]

theorem minimalDoc_block (ts : List Char) (hts : '\n' ∉ ts) :
    format_metadata (toml_dumps (minimalDoc ts)) = joinNl (blockLines (minimalDoc ts)) :=
  format_metadata_blockLines (by rw [minimalDoc]; simp) (minimalDoc_noNl hts)
    (minimalDoc_last ts)

theorem l0_ne_start {l0 rest : List Char}
    (hsb : (l0 ++ '\n' :: rest).take 2 = "#!".data) : l0 ≠ startMarker := by
  intro he
  subst he
  rw [List.take_append_of_le_length (by decide)] at hsb
  exact absurd hsb (by decide)

theorem run1_insert {t ts : List Char} (hts : '\n' ∉ ts)
    (hnb : findBlocks (splitNl t) = [])
    (hsheb : t.take 2 = "#!".data → '\n' ∈ t)
    (hrun : lastEndIdx
      (if t.take 2 = "#!".data then (splitNl t).tail else splitNl t) = none) :
    ∃ P S, update_exclude_newer ts t
        = .ok (joinNl (P ++ blockLines (minimalDoc ts) ++ S)) ∧
      (∀ l ∈ P, '\n' ∉ l) ∧ (∀ l ∈ S, '\n' ∉ l) ∧
      (∀ l, l < P.length →
        tryMatchAt (P ++ blockLines (minimalDoc ts) ++ S) l = none) ∧
      lastEndIdx S = none ∧ (∀ k, tryMatchAt S k = none) := by
  have hex : extract_metadata_block t = .ok none := by
    rw [extract_metadata_block, hnb]
  have hbne : blockLines (minimalDoc ts) ≠ [] := by
    rw [blockLines]; simp
  by_cases hsb : t.take 2 = "#!".data
  · obtain ⟨l0, rest, hdec, hl0⟩ := firstNl_decomp (hsheb hsb)
    have hsplitT : splitNl t = l0 :: splitNl rest := by
      rw [hdec]
      exact splitNl_append_noNl hl0 rest
    refine ⟨[l0], splitNl rest, ?_, ?_, ?_, ?_, ?_, ?_⟩
    · unfold update_exclude_newer
      rw [hex]
      dsimp only
      rw [if_pos hsb]
      rw [hdec, pySplitKeep_cons_line hl0]
      dsimp only [List.headD, List.tail]
      rw [flatten_pySplitKeep]
      rw [joinNl_three hbne [l0] (splitNl rest)]
      rw [nlTail_ne (splitNl_ne_nil rest), joinNl_splitNl]
      rw [minimalDoc_block ts hts]
      rw [flattenNl_cons, flattenNl_nil]
    · intro l hl
      have : l = l0 := by simpa using hl
      rw [this]
      exact hl0
    · exact fun l hl => noNl_of_mem_splitNl hl
    · intro l hl
      have hl0' : l = 0 := by simp at hl; omega
      subst hl0'
      apply tryMatchAt_none_of_ne
      rw [show ([l0] ++ blockLines (minimalDoc ts) ++ splitNl rest).getD 0 [] = l0 from rfl]
      exact l0_ne_start (hdec ▸ hsb)
    · rw [if_pos hsb, hsplitT] at hrun
      exact hrun
    · intro k
      have hall := findFrom_nil_inv (splitNl t).length 0 (by omega) hnb
      have := hall (1 + k) (by omega)
      rw [hsplitT, show (l0 :: splitNl rest) = [l0] ++ splitNl rest from rfl] at this
      rw [show (1 : Nat) + k = ([l0] : List (List Char)).length + k from by simp] at this
      rw [tryMatchAt_shift] at this
      exact this
  · refine ⟨[], splitNl t, ?_, by simp, ?_, ?_, ?_, ?_⟩
    · unfold update_exclude_newer
      rw [hex]
      dsimp only
      rw [if_neg hsb]
      rw [joinNl_three hbne [] (splitNl t)]
      rw [nlTail_ne (splitNl_ne_nil t), joinNl_splitNl]
      rw [minimalDoc_block ts hts]
      rw [flattenNl_nil]
      simp
    · exact fun l hl => noNl_of_mem_splitNl hl
    · intro l hl
      simp at hl
    · rw [if_neg hsb] at hrun
      exact hrun
    · intro k
      exact findFrom_nil_inv (splitNl t).length 0 (by omega) hnb k (by omega)

theorem Tlast_of_decomp {Pre W T : List (List Char)} {ts : List Char}
    (h : (Pre ++ toolUvHeader :: (W ++ mkKv ts :: T)).getLast? ≠ some []) :
    T.getLast? ≠ some [] := by
  cases T with
  | nil => simp
  | cons b T' =>
    rw [List.getLast?_append_of_ne_nil Pre (by simp)] at h
    rw [show toolUvHeader :: (W ++ mkKv ts :: b :: T')
      = [toolUvHeader] ++ (W ++ mkKv ts :: b :: T') from rfl] at h
    rw [List.getLast?_append_of_ne_nil [toolUvHeader] (by simp)] at h
    rw [List.getLast?_append_of_ne_nil W (by simp)] at h
    rw [List.getLast?_cons_cons] at h
    exact h

theorem run1_block {t ts : List Char} {i j : Nat} {doc : List (List Char)}
    (hts : '\n' ∉ ts)
    (hone : findBlocks (splitNl t) = [(i, j)])
    (hdoc : toml_parse (parse_metadata (contentGroup (splitNl t) i j)) = some doc)
    (hlastdoc : doc.getLast? ≠ some []) :
    ∃ P S,
      update_exclude_newer ts t
        = .ok (joinNl (P ++ blockLines (setExcludeNewer doc ts) ++ S)) ∧
      (∀ l ∈ P, '\n' ∉ l) ∧ (∀ l ∈ S, '\n' ∉ l) ∧
      (∀ l, l < P.length →
        tryMatchAt (P ++ blockLines (setExcludeNewer doc ts) ++ S) l = none) ∧
      lastEndIdx S = none ∧ (∀ k, tryMatchAt S k = none) ∧
      doc.all validTomlLine = true ∧ (∀ l ∈ doc, '\n' ∉ l) := by
  obtain ⟨h0i, hskips, ⟨idx, htm, hj⟩, hrest⟩ :=
    findFrom_cons_inv (splitNl t).length 0 i j [] (by omega) hone
  obtain ⟨hmark, hlastE, hge⟩ := tryMatchAt_some htm
  obtain ⟨hlt, hall, hend, hnone⟩ := lastEndIdx_some hlastE
  have hilen : i < (splitNl t).length := getD_marker_lt hmark
  have hjlen : j < (splitNl t).length := by
    rw [List.length_drop] at hlt
    omega
  obtain ⟨hMdec, hinlen⟩ := innerLines_decomp htm hj
  have hMne : ((splitNl t).drop i).take (j - i + 1) ≠ [] := by
    rw [hMdec]
    simp
  have hpartsdec : splitNl t
      = (splitNl t).take i ++ ((splitNl t).drop i).take (j - i + 1) ++ (splitNl t).drop (j + 1) := by
    have h2 : (((splitNl t).drop i)).drop (j - i + 1) = (splitNl t).drop (j + 1) := by
      rw [List.drop_drop]
      congr 1
      omega
    rw [← h2, List.append_assoc, List.take_append_drop, List.take_append_drop]
  have hPlen : ((splitNl t).take i).length = i := by
    rw [List.length_take]
    omega
  have hMlen : (((splitNl t).drop i).take (j - i + 1)).length = j - i + 1 := by
    rw [List.length_take, List.length_drop]
    omega
  obtain ⟨hdocsplit, hdocvalid⟩ := toml_parse_some hdoc
  have hdocnl : ∀ l ∈ doc, '\n' ∉ l := fun l hl => by
    rw [hdocsplit] at hl
    exact noNl_of_mem_splitNl hl
  obtain ⟨Pre, W, T, hPre, hW, hsetall⟩ := setExcludeNewer_decomp doc
  have hsetne : setExcludeNewer doc ts ≠ [] := by
    rw [hsetall ts]
    simp
  have hsetblock : format_metadata (toml_dumps (setExcludeNewer doc ts))
      = joinNl (blockLines (setExcludeNewer doc ts)) :=
    format_metadata_blockLines hsetne (set_noNl hts hdocnl) (set_getLast ts hlastdoc)
  have hblockne : blockLines (setExcludeNewer doc ts) ≠ [] := by
    rw [blockLines]
    simp
  have hex : extract_metadata_block t = .ok (some (i, j)) := by
    rw [extract_metadata_block, hone]
  have hTake : t.take (matchStart (splitNl t) i) = flattenNl ((splitNl t).take i) := by
    have key := take_matchStart hMne ((splitNl t).take i) ((splitNl t).drop (j + 1))
    rw [← hpartsdec, hPlen, joinNl_splitNl] at key
    exact key
  have hDrop : t.drop (matchEnd (splitNl t) j) = nlTail ((splitNl t).drop (j + 1)) := by
    have key := drop_matchEnd hMne ((splitNl t).take i) ((splitNl t).drop (j + 1))
    rw [← hpartsdec, hPlen, hMlen, joinNl_splitNl,
      show i + (j - i + 1) - 1 = j from by omega] at key
    exact key
  refine ⟨(splitNl t).take i, (splitNl t).drop (j + 1), ?_, ?_, ?_, ?_, ?_, ?_, hdocvalid, hdocnl⟩
  · unfold update_exclude_newer
    rw [hex]
    dsimp only
    rw [hdoc]
    dsimp only
    rw [hTake, hDrop, hsetblock, joinNl_three hblockne]
  · exact fun l hl => noNl_of_mem_splitNl (List.mem_of_mem_take hl)
  · exact fun l hl => noNl_of_mem_splitNl (List.mem_of_mem_drop hl)
  · intro l hl
    rw [hPlen] at hl
    have hSrun : lastEndIdx ((splitNl t).drop (j + 1)) = none := by
      rw [show (splitNl t).drop (j + 1) = ((splitNl t).drop (i + 1)).drop (idx + 1) from by
        rw [List.drop_drop]
        congr 1
        omega]
      exact hnone
    apply tryMatchAt_transfer (by rw [hPlen]; exact hl)
      (mem_innerLines_content htm hj)
      (fun x hx => by
        obtain ⟨a, _, rfl⟩ := List.mem_map.mp hx
        exact frameLine_content a)
      hSrun
    have hold := hskips l (by omega) hl
    rw [hpartsdec] at hold
    rw [show ((splitNl t).drop i).take (j - i + 1)
      = (startMarker :: innerLines (splitNl t) i j) ++ [endMarker] from by
        rw [hMdec]
        rfl] at hold
    exact hold
  · rw [show (splitNl t).drop (j + 1) = ((splitNl t).drop (i + 1)).drop (idx + 1) from by
      rw [List.drop_drop]
      congr 1
      omega]
    exact hnone
  · intro k
    have hallnone := findFrom_nil_inv (splitNl t).length (j + 1) (by omega) hrest
    have hsh := tryMatchAt_shift ((splitNl t).take (j + 1)) ((splitNl t).drop (j + 1)) k
    rw [List.take_append_drop] at hsh
    rw [show ((splitNl t).take (j + 1)).length = j + 1 from by
      rw [List.length_take]
      omega] at hsh
    rw [← hsh]
    exact hallnone (j + 1 + k) (by omega)

theorem getLast?_getD {l : List (List Char)} {n : Nat} (h : l.length = n + 1) :
    l.getLast? = some (l.getD n []) := by
  rw [List.getLast?_eq_getElem?, h, Nat.add_sub_cancel]
  rw [List.getElem?_eq_getElem (by omega)]
  rw [List.getD_eq_getElem l [] (by omega)]

theorem innerLines_getD {parts : List (List Char)} {i j idx : Nat}
    (hj : j = i + 1 + idx) (hge : 1 ≤ idx) :
    (innerLines parts i j).getD (idx - 1) [] = parts.getD (j - 1) [] := by
  rw [innerLines, show j - (i + 1) = idx from by omega]
  rw [List.getD_eq_getElem?_getD, List.getElem?_take_of_lt (by omega),
    ← List.getD_eq_getElem?_getD]
  rw [getD_drop, show i + 1 + (idx - 1) = j - 1 from by omega]

theorem doc_last_of_block {t : List Char} {i j idx : Nat} {doc : List (List Char)}
    (htm : tryMatchAt (splitNl t) i = some idx) (hj : j = i + 1 + idx)
    (hdoc : toml_parse (parse_metadata (contentGroup (splitNl t) i j)) = some doc) :
    doc.getLast? = some (stripLine ((splitNl t).getD (j - 1) [])) := by
  obtain ⟨hmark, hlastE, hge⟩ := tryMatchAt_some htm
  obtain ⟨-, hinlen⟩ := innerLines_decomp htm hj
  have hinnl : ∀ l ∈ innerLines (splitNl t) i j, '\n' ∉ l :=
    fun l hl => noNl_of_mem_splitNl (mem_innerLines_subset hl)
  have hpm : parse_metadata (contentGroup (splitNl t) i j)
      = joinNl ((innerLines (splitNl t) i j).map stripLine) := by
    rw [parse_metadata, contentGroup, pySplitlines_flattenNl hinnl]
  have hdocsplit := (toml_parse_some hdoc).1
  rw [hpm] at hdocsplit
  have hne : innerLines (splitNl t) i j ≠ [] := by
    intro h
    rw [h] at hinlen
    simp at hinlen
    omega
  rw [splitNl_joinNl (fun l hl => by
      obtain ⟨a, ha, rfl⟩ := List.mem_map.mp hl
      exact fun hc => hinnl a ha (mem_stripLine hc))
    (by simpa using hne)] at hdocsplit
  rw [hdocsplit, List.getLast?_map]
  rw [@getLast?_getD (innerLines (splitNl t) i j) (idx - 1) (by rw [hinlen]; omega)]
  rw [innerLines_getD hj hge]
  rfl

theorem minimalDoc_eq_D (ts : List Char) :
    minimalDoc ts = ["dependencies = []".data, toolHeader]
      ++ toolUvHeader :: ([] ++ mkKv ts :: []) := rfl

theorem regime_eq_mid (P S Pre W T : List (List Char)) (ts : List Char) :
    joinNl (P ++ blockLines (Pre ++ toolUvHeader :: (W ++ mkKv ts :: T)) ++ S)
      = flattenNl (P ++ startMarker :: (Pre.map frameLine
          ++ frameLine toolUvHeader :: W.map frameLine))
        ++ framedKv ts
        ++ '\n' :: joinNl (T.map frameLine ++ endMarker :: S) := by
  have hlist : P ++ blockLines (Pre ++ toolUvHeader :: (W ++ mkKv ts :: T)) ++ S
      = (P ++ startMarker :: (Pre.map frameLine ++ frameLine toolUvHeader :: W.map frameLine))
        ++ [framedKv ts] ++ (T.map frameLine ++ endMarker :: S) := by
    rw [blockLines, ← framedKv_eq]
    simp
  rw [hlist, joinNl_three (show [framedKv ts] ≠ [] from by simp) _ _,
    nlTail_ne (show T.map frameLine ++ endMarker :: S ≠ [] from by simp),
    show joinNl [framedKv ts] = framedKv ts from rfl]

theorem stamp_chain {P S Pre W T : List (List Char)} {ts1 ts2 ts3 o1 : List Char}
    (hts1 : '\n' ∉ ts1) (hts2 : '\n' ∉ ts2) (hts3 : '\n' ∉ ts3)
    (hPre : ∀ l ∈ Pre, l ≠ toolUvHeader)
    (hW : ∀ l ∈ W, isExcludeKv l = false ∧ isHeaderLine l = false)
    (hv : ∀ l ∈ Pre ++ W ++ T, validTomlLine l = true)
    (hnlP : ∀ l ∈ P, '\n' ∉ l)
    (hnlS : ∀ l ∈ S, '\n' ∉ l)
    (hnlPWT : ∀ l ∈ Pre ++ W ++ T, '\n' ∉ l)
    (hTlast : T.getLast? ≠ some [])
    (hP : ∀ l, l < P.length →
      tryMatchAt (P ++ blockLines (Pre ++ toolUvHeader :: (W ++ mkKv ts1 :: T)) ++ S) l = none)
    (hSrun : lastEndIdx S = none)
    (hSnone : ∀ k, tryMatchAt S k = none)
    (ho1 : o1 = joinNl (P ++ blockLines (Pre ++ toolUvHeader :: (W ++ mkKv ts1 :: T)) ++ S)) :
    ∃ pre suf,
      o1 = pre ++ framedKv ts1 ++ suf ∧
      update_exclude_newer ts2 o1 = .ok (pre ++ framedKv ts2 ++ suf) ∧
      update_exclude_newer ts3 (pre ++ framedKv ts2 ++ suf)
        = .ok (pre ++ framedKv ts3 ++ suf) ∧
      (pre ++ framedKv ts2 ++ suf).count '\n' = o1.count '\n' ∧
      (pre ++ framedKv ts3 ++ suf).count '\n' = o1.count '\n' := by
  obtain ⟨h2, hP2⟩ := stamp_regime hts1 hts2 hPre hW hv hnlP hnlS hnlPWT hTlast hP hSrun hSnone
  obtain ⟨h3, -⟩ := stamp_regime hts2 hts3 hPre hW hv hnlP hnlS hnlPWT hTlast hP2 hSrun hSnone
  refine ⟨flattenNl (P ++ startMarker :: (Pre.map frameLine
      ++ frameLine toolUvHeader :: W.map frameLine)),
    '\n' :: joinNl (T.map frameLine ++ endMarker :: S), ?_, ?_, ?_, ?_, ?_⟩
  · rw [ho1, regime_eq_mid]
  · rw [ho1, ← regime_eq_mid]
    exact h2
  · rw [← regime_eq_mid, ← regime_eq_mid]
    exact h3
  · rw [ho1, regime_eq_mid P S Pre W T ts1]
    simp only [List.append_assoc, List.count_append]
    rw [List.count_eq_zero.mpr (noNl_framedKv hts2),
      List.count_eq_zero.mpr (noNl_framedKv hts1)]
  · rw [ho1, regime_eq_mid P S Pre W T ts1]
    simp only [List.append_assoc, List.count_append]
    rw [List.count_eq_zero.mpr (noNl_framedKv hts3),
      List.count_eq_zero.mpr (noNl_framedKv hts1)]

/-- C1 (amended): stamp idempotence up to the timestamp string.  For every
newline-break text in the stampOk domain (no-block shebang texts contain a
newline, no stray end-marker line follows the insertion point, and a found
block's last inner line does not decode to an empty line), if the first
update succeeds then its output splits as a prefix, the framed
exclude-newer line, and a suffix; the second and third updates (with
arbitrary newline-free timestamps) succeed and change only that framed
timestamp line, leaving prefix and suffix byte-identical, and all three
outputs have identical total newline counts — no blank lines accumulate
and no framing is duplicated. -/
theorem stamp_idempotent_amended {t ts1 ts2 ts3 o1 : List Char}
    (ht : Clean t)
    (h1 : TsOk ts1) (h2 : TsOk ts2) (h3 : TsOk ts3)
    (hok : stampOk t = true)
    (hupd1 : update_exclude_newer ts1 t = .ok o1) :
    ∃ pre suf,
      o1 = pre ++ framedKv ts1 ++ suf ∧
      update_exclude_newer ts2 o1 = .ok (pre ++ framedKv ts2 ++ suf) ∧
      update_exclude_newer ts3 (pre ++ framedKv ts2 ++ suf)
        = .ok (pre ++ framedKv ts3 ++ suf) ∧
      (pre ++ framedKv ts2 ++ suf).count '\n' = o1.count '\n' ∧
      (pre ++ framedKv ts3 ++ suf).count '\n' = o1.count '\n' := by
  obtain ⟨hts1, -⟩ := h1
  obtain ⟨hts2, -⟩ := h2
  obtain ⟨hts3, -⟩ := h3
  rcases hfb : findBlocks (splitNl t) with - | ⟨⟨i, j⟩, rest⟩
  · unfold stampOk at hok
    rw [hfb] at hok
    dsimp only at hok
    rw [Bool.and_eq_true] at hok
    obtain ⟨hok1, hok2⟩ := hok
    have hsheb : t.take 2 = "#!".data → '\n' ∈ t := by
      intro hs
      rw [Bool.or_eq_true] at hok1
      rcases hok1 with hfalse | hc
      · rw [Bool.not_eq_true', beq_eq_false_iff_ne] at hfalse
        exact absurd hs hfalse
      · simpa using hc
    have hrun : lastEndIdx
        (if t.take 2 = "#!".data then (splitNl t).tail else splitNl t) = none := by
      by_cases hsb : t.take 2 = "#!".data
      · rw [if_pos hsb]
        rw [if_pos (show (t.take 2 == "#!".data) = true from by simp [hsb])] at hok2
        exact Option.isNone_iff_eq_none.mp hok2
      · rw [if_neg hsb]
        rw [if_neg (show ¬(t.take 2 == "#!".data) = true from by simp [hsb])] at hok2
        exact Option.isNone_iff_eq_none.mp hok2
    obtain ⟨P, S, hupd, hnlP, hnlS, hP, hSrun, hSnone⟩ := run1_insert hts1 hfb hsheb hrun
    have ho1 : o1 = joinNl (P ++ blockLines (minimalDoc ts1) ++ S) := by
      have h := hupd1.symm.trans hupd
      injection h
    rw [minimalDoc_eq_D ts1] at ho1 hP
    exact stamp_chain hts1 hts2 hts3 (by decide) (by simp) (by decide) hnlP hnlS
      (by decide) (by simp) hP hSrun hSnone ho1
  · rcases rest with - | ⟨q, rest2⟩
    · obtain ⟨-, -, ⟨idx, htm, hj⟩, -⟩ :=
        findFrom_cons_inv (splitNl t).length 0 i j [] (by omega) hfb
      have hex : extract_metadata_block t = .ok (some (i, j)) := by
        rw [extract_metadata_block, hfb]
      obtain ⟨doc, htp⟩ :
          ∃ doc, toml_parse (parse_metadata (contentGroup (splitNl t) i j)) = some doc := by
        rcases htp : toml_parse (parse_metadata (contentGroup (splitNl t) i j)) with - | doc
        · unfold update_exclude_newer at hupd1
          rw [hex] at hupd1
          dsimp only at hupd1
          rw [htp] at hupd1
          simp at hupd1
        · exact ⟨doc, rfl⟩
      unfold stampOk at hok
      rw [hfb] at hok
      dsimp only at hok
      have hstrip : stripLine ((splitNl t).getD (j - 1) []) ≠ [] := by
        intro hnil
        rw [hnil] at hok
        simp at hok
      have hlastdoc : doc.getLast? ≠ some [] := by
        rw [doc_last_of_block htm hj htp]
        intro hc
        injection hc with hc
        exact hstrip hc
      obtain ⟨P, S, hupd, hnlP, hnlS, hP, hSrun, hSnone, hdocvalid, hdocnl⟩ :=
        run1_block hts1 hfb htp hlastdoc
      have ho1 : o1 = joinNl (P ++ blockLines (setExcludeNewer doc ts1) ++ S) := by
        have h := hupd1.symm.trans hupd
        injection h
      obtain ⟨Pre, W, T, hPre, hW, hsetall⟩ := setExcludeNewer_decomp doc
      rw [hsetall ts1] at ho1 hP
      have hvall := set_valid ts1 hdocvalid
      rw [List.all_eq_true] at hvall
      have hmemset : ∀ l, l ∈ Pre ++ W ++ T → l ∈ setExcludeNewer doc ts1 := by
        intro l hl
        rw [hsetall ts1]
        simp only [List.mem_append, List.mem_cons] at hl ⊢
        tauto
      have hv : ∀ l ∈ Pre ++ W ++ T, validTomlLine l = true :=
        fun l hl => hvall l (hmemset l hl)
      have hnlPWT : ∀ l ∈ Pre ++ W ++ T, '\n' ∉ l :=
        fun l hl => set_noNl hts1 hdocnl l (hmemset l hl)
      have hTlast : T.getLast? ≠ some [] := by
        have hsl := set_getLast ts1 hlastdoc
        rw [hsetall ts1] at hsl
        exact Tlast_of_decomp hsl
      exact stamp_chain hts1 hts2 hts3 hPre hW hv hnlP hnlS hnlPWT hTlast hP hSrun hSnone ho1
    · have hex : extract_metadata_block t = .error .multipleBlocks := by
        rw [extract_metadata_block, hfb]
      unfold update_exclude_newer at hupd1
      rw [hex] at hupd1
      simp at hupd1

/-- C1, counterexample to the unamended claim: on the newline-free shebang
text "#!x" the first stamp glues the block onto the shebang line, the
second stamp fails to locate it and inserts a whole second block, and the
two outputs have different total newline counts (6 versus 12) — the runs
do not differ only in the timestamp string. -/
theorem stamp_idempotent_cex :
    update_exclude_newer "A".data "#!x".data
      = .ok "#!x# /// script\n# dependencies = []\n# [tool]\n# [tool.uv]\n# exclude-newer = \"A\"\n# ///\n".data ∧
    update_exclude_newer "B".data "#!x# /// script\n# dependencies = []\n# [tool]\n# [tool.uv]\n# exclude-newer = \"A\"\n# ///\n".data
      = .ok "#!x# /// script\n# /// script\n# dependencies = []\n# [tool]\n# [tool.uv]\n# exclude-newer = \"B\"\n# ///\n# dependencies = []\n# [tool]\n# [tool.uv]\n# exclude-newer = \"A\"\n# ///\n".data ∧
    ("#!x# /// script\n# dependencies = []\n# [tool]\n# [tool.uv]\n# exclude-newer = \"A\"\n# ///\n".data).count '\n' = 6 ∧
    ("#!x# /// script\n# /// script\n# dependencies = []\n# [tool]\n# [tool.uv]\n# exclude-newer = \"B\"\n# ///\n# dependencies = []\n# [tool]\n# [tool.uv]\n# exclude-newer = \"A\"\n# ///\n".data).count '\n' = 12 := by
  exact ⟨rfl, rfl, by decide, by decide⟩

theorem stamp_idempotent_amended_witness :
    Clean "# /// script\n# a = \"b\"\n# ///\n".data ∧
    TsOk "A".data ∧ TsOk "B".data ∧ TsOk "C".data ∧
    stampOk "# /// script\n# a = \"b\"\n# ///\n".data = true ∧
    update_exclude_newer "A".data "# /// script\n# a = \"b\"\n# ///\n".data
      = .ok "# /// script\n# a = \"b\"\n# [tool]\n# [tool.uv]\n# exclude-newer = \"A\"\n# ///\n".data ∧
    (∃ pre suf,
      "# /// script\n# a = \"b\"\n# [tool]\n# [tool.uv]\n# exclude-newer = \"A\"\n# ///\n".data
        = pre ++ framedKv "A".data ++ suf ∧
      update_exclude_newer "B".data "# /// script\n# a = \"b\"\n# [tool]\n# [tool.uv]\n# exclude-newer = \"A\"\n# ///\n".data
        = .ok (pre ++ framedKv "B".data ++ suf) ∧
      update_exclude_newer "C".data (pre ++ framedKv "B".data ++ suf)
        = .ok (pre ++ framedKv "C".data ++ suf) ∧
      (pre ++ framedKv "B".data ++ suf).count '\n'
        = ("# /// script\n# a = \"b\"\n# [tool]\n# [tool.uv]\n# exclude-newer = \"A\"\n# ///\n".data).count '\n' ∧
      (pre ++ framedKv "C".data ++ suf).count '\n'
        = ("# /// script\n# a = \"b\"\n# [tool]\n# [tool.uv]\n# exclude-newer = \"A\"\n# ///\n".data).count '\n') :=
  ⟨by decide, by decide, by decide, by decide, by decide, rfl,
    @stamp_idempotent_amended "# /// script\n# a = \"b\"\n# ///\n".data
      "A".data "B".data "C".data
      "# /// script\n# a = \"b\"\n# [tool]\n# [tool.uv]\n# exclude-newer = \"A\"\n# ///\n".data
      (by decide) (by decide) (by decide) (by decide) (by decide) rfl⟩
